import Mathlib

/-!
Verification of the key-cancellation engine
(`quantum/process_keycode/process_key_cancellation.c`) and of the mouse
turbo-click helper
(`keyboards/lemokey/l3/ansi/keymaps/via/features/mouse_turbo_click.c`).

Keycodes are 16-bit unsigned integers on which the engine only performs
equality comparisons, so they are embedded as `Nat`.  The global arrays
`buffer_keyreports` (with its element count `buffer_keyreport_count`) and
`buffer_keyreports_temp` are embedded as Lean lists holding exactly the
first `count` slots; every loop in the source reads the arrays only below
that bound, so the stale slots beyond it are irrelevant.  The host-facing
primitives `del_key`/`add_key` and the eeprom write are external
side-effecting calls; the engine's calls to them are recorded as an emitted
action list (the eeprom write carries no data relevant to any claim and is
not recorded).
-/

namespace KeyCancellation

/-- `#define KEYREPORT_BUFFER_SIZE 10` -/
def KEYREPORT_BUFFER_SIZE : Nat := 10

/-- A cancellation table entry `key_cancellation_t {press, unpress}`. -/
structure key_cancellation_t where
  press : Nat
  unpress : Nat
deriving DecidableEq, Repr

/-- Modelled from the spec: the six dedicated control keycodes
(`QK_KEY_CANCELLATION_ON`, …) are declared in `keycodes.h`, which is outside
the sources at hand.  Their exact numeric values are immaterial to every
claim; what matters is that they are six distinct keycodes outside the basic
range, which holds for the firmware's quantum keycode block. -/
def QK_KEY_CANCELLATION_ON : Nat := 0x7CD0

/-- Modelled from the spec: see `QK_KEY_CANCELLATION_ON`. -/
def QK_KEY_CANCELLATION_OFF : Nat := 0x7CD1

/-- Modelled from the spec: see `QK_KEY_CANCELLATION_ON`. -/
def QK_KEY_CANCELLATION_TOGGLE : Nat := 0x7CD2

/-- Modelled from the spec: see `QK_KEY_CANCELLATION_ON`. -/
def QK_KEY_CANCELLATION_RECOVERY_ON : Nat := 0x7CD3

/-- Modelled from the spec: see `QK_KEY_CANCELLATION_ON`. -/
def QK_KEY_CANCELLATION_RECOVERY_OFF : Nat := 0x7CD4

/-- Modelled from the spec: see `QK_KEY_CANCELLATION_ON`. -/
def QK_KEY_CANCELLATION_RECOVERY_TOGGLE : Nat := 0x7CD5

/-- The six control keycodes, for stating control-code claims. -/
def controlKeycodes : List Nat :=
  [QK_KEY_CANCELLATION_ON, QK_KEY_CANCELLATION_OFF, QK_KEY_CANCELLATION_TOGGLE,
   QK_KEY_CANCELLATION_RECOVERY_ON, QK_KEY_CANCELLATION_RECOVERY_OFF,
   QK_KEY_CANCELLATION_RECOVERY_TOGGLE]

/-- Modelled from the spec: the "basic reportable key" class.  The macro
`IS_BASIC_KEYCODE` lives in `keycodes.h` (outside the sources at hand) and
tests `KC_A <= code && code <= KC_EXSEL`, i.e. `0x04 ≤ code ≤ 0xA4`:
plain reportable keys, excluding modifiers, layer keys and quantum codes. -/
def IS_BASIC_KEYCODE (code : Nat) : Bool :=
  (4 ≤ code) && (code ≤ 0xA4)

/-- The relevant fields of `keymap_config` (persisted externally; the
eeprom propagation is an external side effect not modelled). -/
structure keymap_config_t where
  key_cancellation_enable : Bool
  key_cancellation_recovery_enable : Bool
deriving DecidableEq, Repr

/-- `key_cancellation_enable()` (line 37): sets the flag. -/
def key_cancellation_enable (c : keymap_config_t) : keymap_config_t :=
  { c with key_cancellation_enable := true }

/-- `key_cancellation_disable()` (line 46). -/
def key_cancellation_disable (c : keymap_config_t) : keymap_config_t :=
  { c with key_cancellation_enable := false }

/-- `key_cancellation_toggle()` (line 55). -/
def key_cancellation_toggle (c : keymap_config_t) : keymap_config_t :=
  { c with key_cancellation_enable := !c.key_cancellation_enable }

/-- `key_cancellation_recovery_enable()` (line 75). -/
def key_cancellation_recovery_enable (c : keymap_config_t) : keymap_config_t :=
  { c with key_cancellation_recovery_enable := true }

/-- `key_cancellation_recovery_disable()` (line 84). -/
def key_cancellation_recovery_disable (c : keymap_config_t) : keymap_config_t :=
  { c with key_cancellation_recovery_enable := false }

/-- `key_cancellation_recovery_toggle()` (line 93). -/
def key_cancellation_recovery_toggle (c : keymap_config_t) : keymap_config_t :=
  { c with key_cancellation_recovery_enable := !c.key_cancellation_recovery_enable }

/-- The weak default `process_key_cancellation_user` (line 107): always allow. -/
def process_key_cancellation_user (_keycode : Nat) (_pressed : Bool) : Bool :=
  true

/-- `key_cancellation_is_key_in_buffer` (line 112): linear scan of the
hold buffer. -/
def key_cancellation_is_key_in_buffer (buf : List Nat) (keycode : Nat) : Bool :=
  buf.any (fun x => x == keycode)

/-- `add_key_buffer` (line 121): no-op if already present, no-op if the
buffer is at capacity, else append at the free slot. -/
def add_key_buffer (buf : List Nat) (keycode : Nat) : List Nat :=
  if key_cancellation_is_key_in_buffer buf keycode then buf
  else if KEYREPORT_BUFFER_SIZE ≤ buf.length then buf
  else buf ++ [keycode]

/-- `del_key_buffer` (line 135): remove the first occurrence and shift the
remaining entries left. -/
def del_key_buffer : List Nat → Nat → List Nat
  | [], _ => []
  | x :: xs, keycode => if x = keycode then xs else x :: del_key_buffer xs keycode

/-- `del_key_buffer_temp` (line 148): in the snapshot, overwrite with `0`
the first slot below `end_index` holding `keycode`, without shifting. -/
def del_key_buffer_temp : List Nat → Nat → Nat → List Nat
  | [], _, _ => []
  | t :: ts, _, 0 => t :: ts
  | t :: ts, keycode, e + 1 =>
      if t = keycode then 0 :: ts else t :: del_key_buffer_temp ts keycode e

/-- `key_cancellation_is_key_in_press_list` (line 158). -/
def key_cancellation_is_key_in_press_list (table : List key_cancellation_t) (keycode : Nat) : Bool :=
  table.any (fun p => p.press == keycode)

/-- A synthetic host action emitted by the engine (`del_key`/`add_key`). -/
inductive HostAction where
  | del_key (keycode : Nat)
  | add_key (keycode : Nat)
deriving DecidableEq, Repr

/-- One pass of the inner loop of the release path (lines 256–266) at
snapshot position `j`: for every table entry whose `press` equals the
snapshot value at `j`, if its `unpress` is in the hold buffer, clear that
`unpress` from the snapshot below `j`. -/
def scanStep (table : List key_cancellation_t) (buf temp : List Nat) (j : Nat) : List Nat :=
  table.foldl
    (fun tmp p =>
      if p.press = tmp.getD j 0 then
        if key_cancellation_is_key_in_buffer buf p.unpress then
          del_key_buffer_temp tmp p.unpress j
        else tmp
      else tmp)
    temp

/-- The outer loop of the release path (line 255): positions
`count - 1` down to `0`. `reconScanAux table buf n temp` still has to
process positions `n - 1, …, 0`. -/
def reconScanAux (table : List key_cancellation_t) (buf : List Nat) : Nat → List Nat → List Nat
  | 0, temp => temp
  | j + 1, temp => reconScanAux table buf j (scanStep table buf temp j)

/-- The whole snapshot scan of the release path, starting from the
`memcpy` snapshot (line 243). -/
def reconScan (table : List key_cancellation_t) (buf : List Nat) : List Nat :=
  reconScanAux table buf buf.length buf

/-- The comparison loop (lines 280–288): positions where buffer and
snapshot differ and the snapshot holds `0` emit `del_key`; positions where
they agree emit `add_key`. -/
def compareEmit : List Nat → List Nat → List HostAction
  | [], _ => []
  | _ :: _, [] => []
  | b :: bs, t :: ts =>
      (if b ≠ t then (if t = 0 then [HostAction.del_key b] else [])
       else [HostAction.add_key b]) ++ compareEmit bs ts

/-- The press-path loop (lines 248–253): one `del_key` per table entry
whose `press` equals the incoming keycode, in table order. -/
def pressEmissions (table : List key_cancellation_t) (keycode : Nat) : List HostAction :=
  table.foldl
    (fun acc p => if keycode = p.press then acc ++ [HostAction.del_key p.unpress] else acc)
    []

/-- The engine's mutable state: the mode flags and the hold buffer. -/
structure KCState where
  config : keymap_config_t
  buffer : List Nat
deriving DecidableEq, Repr

/-- Result of one call to `process_key_cancellation`: the returned
pass-through flag, the updated state, and the emitted host actions in
call order. -/
structure KCResult where
  pass : Bool
  state : KCState
  actions : List HostAction
deriving DecidableEq, Repr

/-- `process_key_cancellation` (line 175), for one key event
`(keycode, pressed)` against cancellation table `table`. -/
def process_key_cancellation (table : List key_cancellation_t) (st : KCState)
    (keycode : Nat) (pressed : Bool) : KCResult :=
  if pressed && (keycode == QK_KEY_CANCELLATION_ON) then
    { pass := false, state := { st with config := key_cancellation_enable st.config }, actions := [] }
  else if pressed && (keycode == QK_KEY_CANCELLATION_OFF) then
    { pass := false, state := { st with config := key_cancellation_disable st.config }, actions := [] }
  else if pressed && (keycode == QK_KEY_CANCELLATION_TOGGLE) then
    { pass := false, state := { st with config := key_cancellation_toggle st.config }, actions := [] }
  else if pressed && (keycode == QK_KEY_CANCELLATION_RECOVERY_ON) then
    { pass := false, state := { st with config := key_cancellation_recovery_enable st.config }, actions := [] }
  else if pressed && (keycode == QK_KEY_CANCELLATION_RECOVERY_OFF) then
    { pass := false, state := { st with config := key_cancellation_recovery_disable st.config }, actions := [] }
  else if pressed && (keycode == QK_KEY_CANCELLATION_RECOVERY_TOGGLE) then
    { pass := false, state := { st with config := key_cancellation_recovery_toggle st.config }, actions := [] }
  else if !st.config.key_cancellation_enable then
    { pass := true, state := st, actions := [] }
  else if !IS_BASIC_KEYCODE keycode then
    { pass := true, state := st, actions := [] }
  else if !process_key_cancellation_user keycode pressed then
    { pass := true, state := st, actions := [] }
  else if !st.config.key_cancellation_recovery_enable && !pressed then
    { pass := true, state := st, actions := [] }
  else
    let buf1 : List Nat :=
      if st.config.key_cancellation_recovery_enable then
        if key_cancellation_is_key_in_press_list table keycode then
          if pressed then add_key_buffer st.buffer keycode
          else del_key_buffer st.buffer keycode
        else st.buffer
      else st.buffer
    let st1 : KCState := { st with buffer := buf1 }
    if st.config.key_cancellation_recovery_enable && (buf1.length == 0) then
      { pass := true, state := st1, actions := [] }
    else if pressed then
      { pass := true, state := st1, actions := pressEmissions table keycode }
    else
      { pass := true, state := st1, actions := compareEmit buf1 (reconScan table buf1) }

/-- Claim-side rendering of the snapshot-clearing rule (spec §4.5 step 2 /
claim C3): clear **every** occurrence of `keycode` **at or before**
position `j`, i.e. at every index `i ≤ j` (`e` counts how many leading
slots are still eligible, so the rule uses `e = j + 1`). -/
def clearAllUpTo : List Nat → Nat → Nat → List Nat
  | [], _, _ => []
  | t :: ts, _, 0 => t :: ts
  | t :: ts, keycode, e + 1 =>
      (if t = keycode then 0 else t) :: clearAllUpTo ts keycode e

/-- The release-path scan exactly as claim C3 words it: same structure as
`scanStep`, but clearing every occurrence of `unpress` at or before `j`. -/
def scanStepSpec (table : List key_cancellation_t) (buf temp : List Nat) (j : Nat) : List Nat :=
  table.foldl
    (fun tmp p =>
      if p.press = tmp.getD j 0 then
        if key_cancellation_is_key_in_buffer buf p.unpress then
          clearAllUpTo tmp p.unpress (j + 1)
        else tmp
      else tmp)
    temp

/-- Outer loop of the claim-side scan of C3. -/
def reconScanSpecAux (table : List key_cancellation_t) (buf : List Nat) : Nat → List Nat → List Nat
  | 0, temp => temp
  | j + 1, temp => reconScanSpecAux table buf j (scanStepSpec table buf temp j)

/-- The whole claim-side scan of C3 ("at or before `j`"). -/
def reconScanSpec (table : List key_cancellation_t) (buf : List Nat) : List Nat :=
  reconScanSpecAux table buf buf.length buf

/-- The amended rendering: clear every occurrence **strictly before** `j`.
Same structure as `scanStepSpec` with bound `j` instead of `j + 1`. -/
def scanStepStrict (table : List key_cancellation_t) (buf temp : List Nat) (j : Nat) : List Nat :=
  table.foldl
    (fun tmp p =>
      if p.press = tmp.getD j 0 then
        if key_cancellation_is_key_in_buffer buf p.unpress then
          clearAllUpTo tmp p.unpress j
        else tmp
      else tmp)
    temp

/-- Outer loop of the amended claim-side scan. -/
def reconScanStrictAux (table : List key_cancellation_t) (buf : List Nat) : Nat → List Nat → List Nat
  | 0, temp => temp
  | j + 1, temp => reconScanStrictAux table buf j (scanStepStrict table buf temp j)

/-- The whole amended claim-side scan ("strictly before `j`"). -/
def reconScanStrict (table : List key_cancellation_t) (buf : List Nat) : List Nat :=
  reconScanStrictAux table buf buf.length buf

/-- Hold-buffer operations, for stating the buffer-invariant claim over
arbitrary operation sequences. -/
inductive BufOp where
  | addOp (keycode : Nat)
  | delOp (keycode : Nat)
deriving DecidableEq, Repr

/-- Apply a sequence of hold-buffer operations. -/
def applyBufOps (buf : List Nat) : List BufOp → List Nat
  | [] => buf
  | BufOp.addOp k :: ops => applyBufOps (add_key_buffer buf k) ops
  | BufOp.delOp k :: ops => applyBufOps (del_key_buffer buf k) ops

/-- The engine-plus-host system state used for the temporal claim: the
engine state, the set of physically held keys, and the set of keys the
host currently believes held. -/
structure SysState where
  kc : KCState
  phys : Finset Nat
  host : Finset Nat

/-- Effect of one emitted host action on the host-held set:
`del_key` clears the keycode from the report, `add_key` sets it. -/
def applyAction (host : Finset Nat) : HostAction → Finset Nat
  | HostAction.del_key k => host.erase k
  | HostAction.add_key k => insert k host

/-- One system step: run the engine on the event, apply its emitted
actions to the host set in order, then forward the original event itself
whenever the engine returned `true` (the surrounding firmware registers a
pressed key / unregisters a released key exactly when the handler allows
the event through). -/
def stepSys (table : List key_cancellation_t) (s : SysState) (keycode : Nat) (pressed : Bool) : SysState :=
  let r := process_key_cancellation table s.kc keycode pressed
  let host1 := r.actions.foldl applyAction s.host
  let host2 := if r.pass then (if pressed then insert keycode host1 else host1.erase keycode) else host1
  { kc := r.state,
    phys := if pressed then insert keycode s.phys else s.phys.erase keycode,
    host := host2 }

/-- Run a list of key events through the system. -/
def runSys (table : List key_cancellation_t) (s : SysState) : List (Nat × Bool) → SysState
  | [] => s
  | (k, p) :: evs => runSys table (stepSys table s k p) evs

/-- The pristine startup state: given mode flags, empty hold buffer, no
key physically held, empty host report. -/
def initSys (cancel recovery : Bool) : SysState :=
  { kc := { config := { key_cancellation_enable := cancel,
                        key_cancellation_recovery_enable := recovery },
            buffer := [] },
    phys := ∅,
    host := ∅ }

/-- The snapshot is a pointwise descendant of the buffer copy: each slot
still holds the copied keycode or has been cleared to `0`. -/
def Desc (buf temp : List Nat) : Prop :=
  List.Forall₂ (fun b t => t = b ∨ t = 0) buf temp

/-- The inductive invariant of the engine-plus-host system used for the
no-double-hold claim, over a table containing the symmetric pairs `(A,B)`
and `(B,A)`: flags pinned, host within physical, never both of A and B in
the host report, and the hold buffer a duplicate-free record of exactly the
physically held press-list keycodes (all of them when recovery is on and no
saturation occurs; none when recovery is off). -/
def SysInv (table : List key_cancellation_t) (A B : Nat) (r : Bool) (s : SysState) : Prop :=
  s.kc.config = ⟨true, r⟩ ∧
  (∀ m, m ∈ s.host → m ∈ s.phys) ∧
  ¬(A ∈ s.host ∧ B ∈ s.host) ∧
  s.kc.buffer.Nodup ∧
  (∀ m, m ∈ s.kc.buffer → IS_BASIC_KEYCODE m = true) ∧
  (∀ m, m ∈ s.kc.buffer → key_cancellation_is_key_in_press_list table m = true) ∧
  (∀ m, m ∈ s.kc.buffer → m ∈ s.phys) ∧
  (∀ m, m ∈ s.phys → IS_BASIC_KEYCODE m = true) ∧
  (r = true → ∀ m, m ∈ s.phys →
    key_cancellation_is_key_in_press_list table m = true → m ∈ s.kc.buffer) ∧
  (r = false → s.kc.buffer = [])

end KeyCancellation

namespace TurboClick

/-- Modelled from the spec: the default repeated-click keycode
`MOUSE_TURBO_CLICK_KEY` is `KC_MS_BTN1`, whose numeric value comes from
the external `keycodes.h`; no claim depends on the value. -/
def MOUSE_TURBO_CLICK_KEY : Nat := 0xCD

/-- The module state of `mouse_turbo_click.c`.  The deferred token is
abstracted to its validity: `click_token_valid = false` stands for
`click_token == INVALID_DEFERRED_TOKEN`, `true` for holding a live token
returned by `defer_exec`. -/
structure TCState where
  turbo_enabled : Bool
  click_token_valid : Bool
  click_registered : Bool
deriving DecidableEq, Repr

/-- External calls made by the module, recorded as emitted actions. -/
inductive TCAction where
  | register16 (keycode : Nat)
  | unregister16 (keycode : Nat)
  | deferExec
  | cancelDeferred
deriving DecidableEq, Repr

/-- `turbo_click_callback` (line 62): alternate between registering and
unregistering the click key.  (The returned re-schedule delay is a
constant and is not modelled.) -/
def turbo_click_callback (st : TCState) : TCState × List TCAction :=
  if st.click_registered then
    ({ st with click_registered := false }, [TCAction.unregister16 MOUSE_TURBO_CLICK_KEY])
  else
    ({ st with click_registered := true }, [TCAction.register16 MOUSE_TURBO_CLICK_KEY])

/-- `turbo_click_start` (line 74): if no timer is active, run the callback
once immediately and schedule it. -/
def turbo_click_start (st : TCState) : TCState × List TCAction :=
  if st.click_token_valid then (st, [])
  else
    let r := turbo_click_callback st
    ({ r.1 with click_token_valid := true }, r.2 ++ [TCAction.deferExec])

/-- `turbo_click_stop` (line 82): if a timer is active, cancel it and
release the click key if currently registered. -/
def turbo_click_stop (st : TCState) : TCState × List TCAction :=
  if st.click_token_valid then
    let st1 : TCState := { st with click_token_valid := false }
    if st1.click_registered then
      ({ st1 with click_registered := false },
       [TCAction.cancelDeferred, TCAction.unregister16 MOUSE_TURBO_CLICK_KEY])
    else (st1, [TCAction.cancelDeferred])
  else (st, [])

/-- Result of one call to `process_mouse_turbo_click`. -/
structure TCResult where
  pass : Bool
  state : TCState
  actions : List TCAction
deriving DecidableEq, Repr

/-- `process_mouse_turbo_click` (line 94). -/
def process_mouse_turbo_click (st : TCState) (keycode : Nat) (pressed : Bool)
    (turbo_click_keycode : Nat) : TCResult :=
  if keycode = turbo_click_keycode then
    if pressed then
      let st1 : TCState := { st with turbo_enabled := !st.turbo_enabled }
      if st1.turbo_enabled then
        let r := turbo_click_start st1
        { pass := false, state := r.1, actions := r.2 }
      else
        let r := turbo_click_stop st1
        { pass := false, state := r.1, actions := r.2 }
    else
      { pass := false, state := st, actions := [] }
  else
    { pass := true, state := st, actions := [] }

end TurboClick

namespace KeyCancellation

theorem isBasic_bounds {k : Nat} (h : IS_BASIC_KEYCODE k = true) : 4 ≤ k ∧ k ≤ 0xA4 := by
  simpa [IS_BASIC_KEYCODE, Bool.and_eq_true, decide_eq_true_eq] using h

theorem basic_ne_zero {k : Nat} (h : IS_BASIC_KEYCODE k = true) : k ≠ 0 := by
  have := isBasic_bounds h
  omega

theorem in_buffer_iff (buf : List Nat) (k : Nat) :
    key_cancellation_is_key_in_buffer buf k = true ↔ k ∈ buf := by
  simp [key_cancellation_is_key_in_buffer, List.any_eq_true, beq_iff_eq]

theorem in_press_list_iff (table : List key_cancellation_t) (k : Nat) :
    key_cancellation_is_key_in_press_list table k = true ↔ ∃ p ∈ table, p.press = k := by
  simp [key_cancellation_is_key_in_press_list, List.any_eq_true, beq_iff_eq]

theorem add_key_buffer_ne_nil (buf : List Nat) (k : Nat) : add_key_buffer buf k ≠ [] := by
  unfold add_key_buffer
  split
  · next h =>
      intro hnil
      rw [in_buffer_iff] at h
      subst hnil
      simp at h
  · split
    · next h _ =>
        intro hnil
        subst hnil
        simp [KEYREPORT_BUFFER_SIZE] at *
    · simp

theorem add_key_buffer_mem_iff (buf : List Nat) (k m : Nat) :
    m ∈ add_key_buffer buf k → m ∈ buf ∨ m = k := by
  unfold add_key_buffer
  split
  · exact fun h => Or.inl h
  · split
    · exact fun h => Or.inl h
    · intro h
      rcases List.mem_append.mp h with h | h
      · exact Or.inl h
      · simp at h; exact Or.inr h

theorem mem_add_key_buffer_of_mem (buf : List Nat) (k m : Nat) (h : m ∈ buf) :
    m ∈ add_key_buffer buf k := by
  unfold add_key_buffer
  split
  · exact h
  · split
    · exact h
    · exact List.mem_append.mpr (Or.inl h)

theorem self_mem_add_key_buffer (buf : List Nat) (k : Nat)
    (hlen : buf.length < KEYREPORT_BUFFER_SIZE) : k ∈ add_key_buffer buf k := by
  unfold add_key_buffer
  split
  · next h => exact (in_buffer_iff buf k).mp h
  · split
    · next h => omega
    · simp

theorem add_key_buffer_nodup (buf : List Nat) (k : Nat) (h : buf.Nodup) :
    (add_key_buffer buf k).Nodup := by
  unfold add_key_buffer
  split
  · exact h
  · split
    · exact h
    · next hin _ =>
        have hk : k ∉ buf := fun hm => hin ((in_buffer_iff buf k).mpr hm)
        simpa [List.nodup_append] using ⟨h, hk⟩

theorem add_key_buffer_length (buf : List Nat) (k : Nat)
    (h : buf.length ≤ KEYREPORT_BUFFER_SIZE) :
    (add_key_buffer buf k).length ≤ KEYREPORT_BUFFER_SIZE := by
  unfold add_key_buffer
  split
  · exact h
  · split
    · exact h
    · next _ hfull =>
        simp only [List.length_append, List.length_cons, List.length_nil]
        omega

theorem mem_del_key_buffer (buf : List Nat) (k m : Nat) :
    m ∈ del_key_buffer buf k → m ∈ buf := by
  induction buf with
  | nil => simp [del_key_buffer]
  | cons x xs ih =>
      simp only [del_key_buffer]
      split
      · intro h; exact List.mem_cons_of_mem x h
      · intro h
        rcases List.mem_cons.mp h with h | h
        · exact List.mem_cons.mpr (Or.inl h)
        · exact List.mem_cons_of_mem x (ih h)

theorem del_key_buffer_nodup (buf : List Nat) (k : Nat) (h : buf.Nodup) :
    (del_key_buffer buf k).Nodup := by
  induction buf with
  | nil => simp [del_key_buffer]
  | cons x xs ih =>
      rcases List.nodup_cons.mp h with ⟨hx, hxs⟩
      simp only [del_key_buffer]
      split
      · exact hxs
      · exact List.nodup_cons.mpr ⟨fun hm => hx (mem_del_key_buffer xs k x hm), ih hxs⟩

theorem del_key_buffer_length (buf : List Nat) (k : Nat) :
    (del_key_buffer buf k).length ≤ buf.length := by
  induction buf with
  | nil => simp [del_key_buffer]
  | cons x xs ih =>
      simp only [del_key_buffer]
      split
      · simp
      · simpa using ih

theorem basic_control_beq {k : Nat} (hb : IS_BASIC_KEYCODE k = true) :
    ((k == QK_KEY_CANCELLATION_ON) = false) ∧
    ((k == QK_KEY_CANCELLATION_OFF) = false) ∧
    ((k == QK_KEY_CANCELLATION_TOGGLE) = false) ∧
    ((k == QK_KEY_CANCELLATION_RECOVERY_ON) = false) ∧
    ((k == QK_KEY_CANCELLATION_RECOVERY_OFF) = false) ∧
    ((k == QK_KEY_CANCELLATION_RECOVERY_TOGGLE) = false) := by
  obtain ⟨h1, h2⟩ := isBasic_bounds hb
  refine ⟨?_, ?_, ?_, ?_, ?_, ?_⟩ <;>
    · rw [beq_eq_false_iff_ne]
      simp only [QK_KEY_CANCELLATION_ON, QK_KEY_CANCELLATION_OFF,
        QK_KEY_CANCELLATION_TOGGLE, QK_KEY_CANCELLATION_RECOVERY_ON,
        QK_KEY_CANCELLATION_RECOVERY_OFF, QK_KEY_CANCELLATION_RECOVERY_TOGGLE]
      omega

theorem process_press_recovery (table : List key_cancellation_t) (st : KCState) (k : Nat)
    (hen : st.config.key_cancellation_enable = true)
    (hrec : st.config.key_cancellation_recovery_enable = true)
    (hb : IS_BASIC_KEYCODE k = true)
    (hp : key_cancellation_is_key_in_press_list table k = true) :
    process_key_cancellation table st k true =
      ⟨true, ⟨st.config, add_key_buffer st.buffer k⟩, pressEmissions table k⟩ := by
  obtain ⟨c1, c2, c3, c4, c5, c6⟩ := basic_control_beq hb
  have hne := add_key_buffer_ne_nil st.buffer k
  simp [process_key_cancellation, c1, c2, c3, c4, c5, c6, hen, hrec, hb,
    process_key_cancellation_user, hp, List.length_eq_zero, hne]

theorem process_press_norecovery (table : List key_cancellation_t) (st : KCState) (k : Nat)
    (hen : st.config.key_cancellation_enable = true)
    (hrec : st.config.key_cancellation_recovery_enable = false)
    (hb : IS_BASIC_KEYCODE k = true) :
    process_key_cancellation table st k true =
      ⟨true, ⟨st.config, st.buffer⟩, pressEmissions table k⟩ := by
  obtain ⟨c1, c2, c3, c4, c5, c6⟩ := basic_control_beq hb
  simp [process_key_cancellation, c1, c2, c3, c4, c5, c6, hen, hrec, hb,
    process_key_cancellation_user]

theorem process_press_notinlist (table : List key_cancellation_t) (st : KCState) (k : Nat)
    (hen : st.config.key_cancellation_enable = true)
    (hrec : st.config.key_cancellation_recovery_enable = true)
    (hb : IS_BASIC_KEYCODE k = true)
    (hp : key_cancellation_is_key_in_press_list table k = false) :
    process_key_cancellation table st k true =
      (if st.buffer.length = 0 then ⟨true, ⟨st.config, st.buffer⟩, []⟩
       else ⟨true, ⟨st.config, st.buffer⟩, pressEmissions table k⟩) := by
  obtain ⟨c1, c2, c3, c4, c5, c6⟩ := basic_control_beq hb
  by_cases hl : st.buffer.length = 0 <;>
    simp [process_key_cancellation, c1, c2, c3, c4, c5, c6, hen, hrec, hb, hp,
      process_key_cancellation_user, hl]

theorem process_release_recovery (table : List key_cancellation_t) (st : KCState) (k : Nat)
    (hen : st.config.key_cancellation_enable = true)
    (hrec : st.config.key_cancellation_recovery_enable = true)
    (hb : IS_BASIC_KEYCODE k = true) :
    process_key_cancellation table st k false =
      (let buf1 := if key_cancellation_is_key_in_press_list table k then
                     del_key_buffer st.buffer k
                   else st.buffer
       if buf1.length = 0 then ⟨true, ⟨st.config, buf1⟩, []⟩
       else ⟨true, ⟨st.config, buf1⟩, compareEmit buf1 (reconScan table buf1)⟩) := by
  by_cases hp : key_cancellation_is_key_in_press_list table k = true
  · by_cases hl : (del_key_buffer st.buffer k).length = 0 <;>
      simp [process_key_cancellation, hen, hrec, hb, process_key_cancellation_user, hp, hl]
  · rw [Bool.not_eq_true] at hp
    by_cases hl : st.buffer.length = 0 <;>
      simp [process_key_cancellation, hen, hrec, hb, process_key_cancellation_user, hp, hl]

theorem process_release_norecovery (table : List key_cancellation_t) (st : KCState) (k : Nat)
    (hrec : st.config.key_cancellation_recovery_enable = false) :
    process_key_cancellation table st k false = ⟨true, st, []⟩ := by
  cases hen : st.config.key_cancellation_enable with
  | false =>
      simp [process_key_cancellation, hen]
  | true =>
      cases hb : IS_BASIC_KEYCODE k with
      | false => simp [process_key_cancellation, hen, hb]
      | true => simp [process_key_cancellation, hen, hb, hrec, process_key_cancellation_user]

theorem pressEmissions_aux (table : List key_cancellation_t) (k : Nat) (acc : List HostAction) :
    table.foldl
      (fun acc p => if k = p.press then acc ++ [HostAction.del_key p.unpress] else acc) acc
    = acc ++ table.filterMap
        (fun p => if p.press = k then some (HostAction.del_key p.unpress) else none) := by
  induction table generalizing acc with
  | nil => simp
  | cons p ps ih =>
      simp only [List.foldl_cons, List.filterMap_cons]
      by_cases h : k = p.press
      · subst h
        simp [ih]
      · have h2 : ¬(p.press = k) := fun hh => h hh.symm
        simp [h, h2, ih]

theorem pressEmissions_eq_filterMap (table : List key_cancellation_t) (k : Nat) :
    pressEmissions table k
      = table.filterMap
          (fun p => if p.press = k then some (HostAction.del_key p.unpress) else none) := by
  simpa using pressEmissions_aux table k []

theorem mem_del_key_buffer_iff (buf : List Nat) (k m : Nat) (h : buf.Nodup) :
    m ∈ del_key_buffer buf k ↔ m ∈ buf ∧ m ≠ k := by
  induction buf with
  | nil => simp [del_key_buffer]
  | cons x xs ih =>
      rcases List.nodup_cons.mp h with ⟨hx, hxs⟩
      simp only [del_key_buffer]
      split
      · next heq =>
          subst heq
          constructor
          · intro hm
            exact ⟨List.mem_cons_of_mem x hm, fun hmx => hx (hmx ▸ hm)⟩
          · rintro ⟨hm, hne⟩
            rcases List.mem_cons.mp hm with h | h
            · exact absurd h hne
            · exact h
      · next hne =>
          constructor
          · intro hm
            rcases List.mem_cons.mp hm with h | h
            · exact ⟨h ▸ List.mem_cons_self x xs, h ▸ hne⟩
            · rcases (ih hxs).mp h with ⟨h1, h2⟩
              exact ⟨List.mem_cons_of_mem x h1, h2⟩
          · rintro ⟨hm, hmk⟩
            rcases List.mem_cons.mp hm with h | h
            · exact h ▸ List.mem_cons_self x (del_key_buffer xs k)
            · exact List.mem_cons_of_mem x ((ih hxs).mpr ⟨h, hmk⟩)

theorem dkbt_length (t : List Nat) (k e : Nat) :
    (del_key_buffer_temp t k e).length = t.length := by
  induction t generalizing e with
  | nil => rfl
  | cons x ts ih =>
      cases e with
      | zero => rfl
      | succ e =>
          simp only [del_key_buffer_temp]
          split <;> simp [ih]

theorem dkbt_getD_or (t : List Nat) (k e i : Nat) :
    (del_key_buffer_temp t k e).getD i 0 = t.getD i 0 ∨
    (del_key_buffer_temp t k e).getD i 0 = 0 := by
  induction t generalizing e i with
  | nil => simp [del_key_buffer_temp]
  | cons x ts ih =>
      cases e with
      | zero => simp [del_key_buffer_temp]
      | succ e =>
          simp only [del_key_buffer_temp]
          split
          · cases i with
            | zero => simp
            | succ i => simp
          · cases i with
            | zero => simp
            | succ i => simpa using ih e i

theorem dkbt_zero (t : List Nat) (k e i : Nat) (h : t.getD i 0 = 0) :
    (del_key_buffer_temp t k e).getD i 0 = 0 := by
  rcases dkbt_getD_or t k e i with h2 | h2
  · rw [h2, h]
  · exact h2

theorem dkbt_getD_of_ge (t : List Nat) (k e i : Nat) (h : e ≤ i) :
    (del_key_buffer_temp t k e).getD i 0 = t.getD i 0 := by
  induction t generalizing e i with
  | nil => simp [del_key_buffer_temp]
  | cons x ts ih =>
      cases e with
      | zero => rfl
      | succ e =>
          simp only [del_key_buffer_temp]
          cases i with
          | zero => omega
          | succ i =>
              split
              · simp
              · simpa using ih e i (by omega)

theorem dkbt_clears (t : List Nat) (k e i : Nat)
    (hbefore : ∀ i', i' < i → t.getD i' 0 ≠ k)
    (hat : t.getD i 0 = k) (hlt : i < e) :
    (del_key_buffer_temp t k e).getD i 0 = 0 := by
  induction t generalizing e i with
  | nil => simp [del_key_buffer_temp]
  | cons x ts ih =>
      cases e with
      | zero => omega
      | succ e =>
          simp only [del_key_buffer_temp]
          cases i with
          | zero =>
              simp only [List.getD_cons_zero] at hat
              rw [if_pos hat]
              simp
          | succ i =>
              have hx : x ≠ k := by
                have := hbefore 0 (Nat.succ_pos i)
                simpa using this
              rw [if_neg hx]
              simp only [List.getD_cons_succ] at hat ⊢
              exact ih e i (fun i' hi' => by
                have := hbefore (i' + 1) (by omega)
                simpa using this) hat (by omega)

theorem scanStep_nil (buf tmp : List Nat) (j : Nat) : scanStep [] buf tmp j = tmp := rfl

theorem scanStep_cons (q : key_cancellation_t) (qs : List key_cancellation_t)
    (buf tmp : List Nat) (j : Nat) :
    scanStep (q :: qs) buf tmp j =
      scanStep qs buf
        (if q.press = tmp.getD j 0 then
          (if key_cancellation_is_key_in_buffer buf q.unpress then
            del_key_buffer_temp tmp q.unpress j
          else tmp)
        else tmp) j := rfl

theorem ss_length (table : List key_cancellation_t) (buf : List Nat) (j : Nat) :
    ∀ tmp : List Nat, (scanStep table buf tmp j).length = tmp.length := by
  induction table with
  | nil => intro tmp; rfl
  | cons q qs ih =>
      intro tmp
      rw [scanStep_cons, ih]
      split
      · split
        · exact dkbt_length tmp q.unpress j
        · rfl
      · rfl

theorem ss_getD_or (table : List key_cancellation_t) (buf : List Nat) (j i : Nat) :
    ∀ tmp : List Nat,
      (scanStep table buf tmp j).getD i 0 = tmp.getD i 0 ∨
      (scanStep table buf tmp j).getD i 0 = 0 := by
  induction table with
  | nil => intro tmp; left; rfl
  | cons q qs ih =>
      intro tmp
      rw [scanStep_cons]
      rcases ih (if q.press = tmp.getD j 0 then
          (if key_cancellation_is_key_in_buffer buf q.unpress then
            del_key_buffer_temp tmp q.unpress j
          else tmp)
        else tmp) with h | h
      · rw [h]
        split
        · split
          · exact dkbt_getD_or tmp q.unpress j i
          · left; rfl
        · left; rfl
      · right; exact h

theorem ss_zero (table : List key_cancellation_t) (buf tmp : List Nat) (j i : Nat)
    (h : tmp.getD i 0 = 0) : (scanStep table buf tmp j).getD i 0 = 0 := by
  rcases ss_getD_or table buf j i tmp with h2 | h2
  · rw [h2, h]
  · exact h2

theorem ss_getD_of_ge (table : List key_cancellation_t) (buf : List Nat) (j i : Nat)
    (hji : j ≤ i) :
    ∀ tmp : List Nat, (scanStep table buf tmp j).getD i 0 = tmp.getD i 0 := by
  induction table with
  | nil => intro tmp; rfl
  | cons q qs ih =>
      intro tmp
      rw [scanStep_cons, ih]
      split
      · split
        · exact dkbt_getD_of_ge tmp q.unpress j i hji
        · rfl
      · rfl

theorem ss_clears (buf : List Nat) (j pU U P : Nat)
    (hbuf : key_cancellation_is_key_in_buffer buf U = true)
    (hUz : U ≠ 0) (hplt : pU < j) :
    ∀ (table : List key_cancellation_t) (tmp : List Nat),
      (⟨P, U⟩ : key_cancellation_t) ∈ table →
      P = tmp.getD j 0 →
      (∀ i, tmp.getD i 0 = U → i = pU) →
      (tmp.getD pU 0 = U ∨ tmp.getD pU 0 = 0) →
      (scanStep table buf tmp j).getD pU 0 = 0 := by
  intro table
  induction table with
  | nil => intro tmp hmem; cases hmem
  | cons q qs ih =>
      intro tmp hmem hP huniq hval
      rw [scanStep_cons]
      rcases List.mem_cons.mp hmem with heq | hmem2
      · have heq2 : q = (⟨P, U⟩ : key_cancellation_t) := heq.symm
        subst heq2
        rw [if_pos hP, if_pos hbuf]
        apply ss_zero
        rcases hval with hv | hv
        · exact dkbt_clears tmp U j pU
            (fun i' hi' hcontra => by have := huniq i' hcontra; omega) hv hplt
        · exact dkbt_zero tmp U j pU hv
      · have h1_or : ∀ i, (if q.press = tmp.getD j 0 then
            (if key_cancellation_is_key_in_buffer buf q.unpress then
              del_key_buffer_temp tmp q.unpress j
            else tmp)
          else tmp).getD i 0 = tmp.getD i 0 ∨
            (if q.press = tmp.getD j 0 then
              (if key_cancellation_is_key_in_buffer buf q.unpress then
                del_key_buffer_temp tmp q.unpress j
              else tmp)
            else tmp).getD i 0 = 0 := by
          intro i
          split
          · split
            · exact dkbt_getD_or tmp q.unpress j i
            · left; rfl
          · left; rfl
        apply ih
        · exact hmem2
        · rw [show (if q.press = tmp.getD j 0 then
              (if key_cancellation_is_key_in_buffer buf q.unpress then
                del_key_buffer_temp tmp q.unpress j
              else tmp)
            else tmp).getD j 0 = tmp.getD j 0 from ?_]
          · exact hP
          · split
            · split
              · exact dkbt_getD_of_ge tmp q.unpress j j le_rfl
              · rfl
            · rfl
        · intro i hi
          rcases h1_or i with h | h
          · exact huniq i (h ▸ hi)
          · rw [h] at hi
            exact absurd hi.symm hUz
        · rcases hval with hv | hv
          · rcases h1_or pU with h | h
            · rw [h, hv]; left; rfl
            · right; exact h
          · right
            rcases h1_or pU with h | h
            · rw [h, hv]
            · exact h

theorem dkbt_end_zero (t : List Nat) (k : Nat) : del_key_buffer_temp t k 0 = t := by
  cases t <;> rfl

theorem scanStep_at_zero (table : List key_cancellation_t) (buf : List Nat) :
    ∀ tmp : List Nat, scanStep table buf tmp 0 = tmp := by
  induction table with
  | nil => intro tmp; rfl
  | cons q qs ih =>
      intro tmp
      rw [scanStep_cons]
      have hstep : (if q.press = tmp.getD 0 0 then
          (if key_cancellation_is_key_in_buffer buf q.unpress then
            del_key_buffer_temp tmp q.unpress 0
          else tmp)
        else tmp) = tmp := by
        split
        · split
          · exact dkbt_end_zero tmp q.unpress
          · rfl
        · rfl
      rw [hstep]
      exact ih tmp

theorem ra_length (table : List key_cancellation_t) (buf : List Nat) :
    ∀ (n : Nat) (tmp : List Nat), (reconScanAux table buf n tmp).length = tmp.length := by
  intro n
  induction n with
  | zero => intro tmp; rfl
  | succ m ih =>
      intro tmp
      simp only [reconScanAux]
      rw [ih, ss_length]

theorem ra_getD_or (table : List key_cancellation_t) (buf : List Nat) (i : Nat) :
    ∀ (n : Nat) (tmp : List Nat),
      (reconScanAux table buf n tmp).getD i 0 = tmp.getD i 0 ∨
      (reconScanAux table buf n tmp).getD i 0 = 0 := by
  intro n
  induction n with
  | zero => intro tmp; left; rfl
  | succ m ih =>
      intro tmp
      simp only [reconScanAux]
      rcases ih (scanStep table buf tmp m) with h | h
      · rcases ss_getD_or table buf m i tmp with h2 | h2
        · left; rw [h, h2]
        · right; rw [h, h2]
      · right; exact h

theorem ra_zero (table : List key_cancellation_t) (buf : List Nat) (i : Nat) :
    ∀ (n : Nat) (tmp : List Nat), tmp.getD i 0 = 0 →
      (reconScanAux table buf n tmp).getD i 0 = 0 := by
  intro n tmp h
  rcases ra_getD_or table buf i n tmp with h2 | h2
  · rw [h2, h]
  · exact h2

theorem ra_clears (table : List key_cancellation_t) (buf : List Nat) (pA pB A B : Nat)
    (hBA : (⟨B, A⟩ : key_cancellation_t) ∈ table)
    (hAbuf : key_cancellation_is_key_in_buffer buf A = true)
    (hA0 : A ≠ 0) (hB0 : B ≠ 0) (hab : pA < pB) :
    ∀ (n : Nat) (tmp : List Nat), pB < n →
      (∀ i, tmp.getD i 0 = A → i = pA) →
      (tmp.getD pA 0 = A ∨ tmp.getD pA 0 = 0) →
      tmp.getD pB 0 = B →
      (reconScanAux table buf n tmp).getD pA 0 = 0 ∨
      (reconScanAux table buf n tmp).getD pB 0 ≠ B := by
  intro n
  induction n with
  | zero => intro tmp h; omega
  | succ m ih =>
      intro tmp hlt huniq hval hB
      simp only [reconScanAux]
      have huniq1 : ∀ i, (scanStep table buf tmp m).getD i 0 = A → i = pA := by
        intro i hi
        rcases ss_getD_or table buf m i tmp with h | h
        · exact huniq i (h ▸ hi)
        · rw [h] at hi
          exact absurd hi.symm hA0
      have hval1 : (scanStep table buf tmp m).getD pA 0 = A ∨
          (scanStep table buf tmp m).getD pA 0 = 0 := by
        rcases ss_getD_or table buf m pA tmp with h | h
        · rw [h]; exact hval
        · right; exact h
      rcases Nat.lt_succ_iff_lt_or_eq.mp hlt with hm | hm
      · rcases ss_getD_or table buf m pB tmp with h | h
        · exact ih (scanStep table buf tmp m) hm huniq1 hval1 (h.trans hB)
        · right
          rw [ra_zero table buf pB m (scanStep table buf tmp m) h]
          exact fun hc => hB0 hc.symm
      · subst hm
        left
        apply ra_zero
        exact ss_clears buf pB pA A B hAbuf hA0 hab table tmp hBA hB.symm huniq hval

theorem getD_of_len_le (l : List Nat) (i : Nat) (h : l.length ≤ i) : l.getD i 0 = 0 := by
  induction l generalizing i with
  | nil => simp
  | cons x xs ih =>
      cases i with
      | zero => simp at h
      | succ i => simpa using ih i (by simpa using h)

theorem getD_mem_of_lt (l : List Nat) (i : Nat) (h : i < l.length) : l.getD i 0 ∈ l := by
  induction l generalizing i with
  | nil => simp at h
  | cons x xs ih =>
      cases i with
      | zero => simp
      | succ i => simpa using Or.inr (ih i (by simpa using h))

theorem mem_getD (l : List Nat) (m : Nat) (h : m ∈ l) :
    ∃ i, i < l.length ∧ l.getD i 0 = m := by
  induction l with
  | nil => cases h
  | cons x xs ih =>
      rcases List.mem_cons.mp h with rfl | h2
      · exact ⟨0, by simp, rfl⟩
      · rcases ih h2 with ⟨i, hi, hg⟩
        exact ⟨i + 1, by simpa using hi, by simpa using hg⟩

theorem getD_nodup_inj (l : List Nat) (hnd : l.Nodup) (i i' v : Nat) (hv0 : v ≠ 0)
    (hgi : l.getD i 0 = v) (hgi' : l.getD i' 0 = v) : i = i' := by
  induction l generalizing i i' with
  | nil =>
      exfalso
      apply hv0
      rw [← hgi]
      simp
  | cons x xs ih =>
      rcases List.nodup_cons.mp hnd with ⟨hx, hxs⟩
      cases i with
      | zero =>
          cases i' with
          | zero => rfl
          | succ i' =>
              exfalso
              simp only [List.getD_cons_zero] at hgi
              simp only [List.getD_cons_succ] at hgi'
              have hlt : i' < xs.length := by
                by_contra hc
                rw [getD_of_len_le xs i' (by omega)] at hgi'
                exact hv0 hgi'.symm
              exact hx (hgi ▸ (hgi' ▸ getD_mem_of_lt xs i' hlt))
      | succ i =>
          cases i' with
          | zero =>
              exfalso
              simp only [List.getD_cons_zero] at hgi'
              simp only [List.getD_cons_succ] at hgi
              have hlt : i < xs.length := by
                by_contra hc
                rw [getD_of_len_le xs i (by omega)] at hgi
                exact hv0 hgi.symm
              exact hx (hgi' ▸ (hgi ▸ getD_mem_of_lt xs i hlt))
          | succ i' =>
              simp only [List.getD_cons_succ] at hgi hgi'
              simpa using ih hxs i i' hgi hgi'

theorem desc_refl (buf : List Nat) : Desc buf buf :=
  List.forall₂_same.mpr (fun _ _ => Or.inl rfl)

theorem desc_count_le (buf temp : List Nat) (h : Desc buf temp) (k : Nat) (hk : k ≠ 0) :
    temp.count k ≤ buf.count k := by
  induction h with
  | nil => simp
  | cons hbt htail ih =>
      rcases hbt with rfl | rfl
      · simp only [List.count_cons]
        omega
      · simp only [List.count_cons]
        have h0k : (0 == k) = false := by
          rw [beq_eq_false_iff_ne]
          exact fun h0 => hk h0.symm
        rw [h0k]
        simp only [Bool.false_eq_true, if_false]
        omega

theorem desc_count_le_one (buf temp : List Nat) (h : Desc buf temp)
    (hnd : buf.Nodup) (k : Nat) (hk : k ≠ 0) : temp.count k ≤ 1 :=
  le_trans (desc_count_le buf temp h k hk) (List.nodup_iff_count_le_one.mp hnd k)

theorem desc_dkbt (buf temp : List Nat) (h : Desc buf temp) (k : Nat) :
    ∀ e, Desc buf (del_key_buffer_temp temp k e) := by
  induction h with
  | nil => intro e; exact List.Forall₂.nil
  | @cons b t bs ts hbt htail ih =>
      intro e
      cases e with
      | zero => exact List.Forall₂.cons hbt htail
      | succ e =>
          simp only [del_key_buffer_temp]
          split
          · exact List.Forall₂.cons (Or.inr rfl) htail
          · exact List.Forall₂.cons hbt (ih e)

theorem desc_clearAll (buf temp : List Nat) (h : Desc buf temp) (k : Nat) :
    ∀ e, Desc buf (clearAllUpTo temp k e) := by
  induction h with
  | nil => intro e; exact List.Forall₂.nil
  | @cons b t bs ts hbt htail ih =>
      intro e
      cases e with
      | zero => exact List.Forall₂.cons hbt htail
      | succ e =>
          simp only [clearAllUpTo]
          split
          · exact List.Forall₂.cons (Or.inr rfl) (ih e)
          · exact List.Forall₂.cons hbt (ih e)

theorem clearAll_of_not_mem (t : List Nat) (k : Nat) (h : k ∉ t) :
    ∀ e, clearAllUpTo t k e = t := by
  induction t with
  | nil => intro e; cases e <;> rfl
  | cons x ts ih =>
      intro e
      cases e with
      | zero => rfl
      | succ e =>
          have hx : x ≠ k := fun he => h (he ▸ List.mem_cons_self x ts)
          simp only [clearAllUpTo]
          rw [if_neg hx, ih (fun hm => h (List.mem_cons_of_mem x hm)) e]

theorem dkbt_eq_clearAll (t : List Nat) (k : Nat) (hcount : t.count k ≤ 1) :
    ∀ e, del_key_buffer_temp t k e = clearAllUpTo t k e := by
  induction t with
  | nil => intro e; cases e <;> rfl
  | cons x ts ih =>
      intro e
      cases e with
      | zero => rfl
      | succ e =>
          simp only [del_key_buffer_temp, clearAllUpTo]
          by_cases hx : x = k
          · rw [if_pos hx]
            have hnot : k ∉ ts := by
              subst hx
              simp only [List.count_cons_self] at hcount
              exact List.count_eq_zero.mp (by omega)
            rw [if_pos hx, clearAll_of_not_mem ts k hnot e]
          · rw [if_neg hx, if_neg hx, ih (by
              simp only [List.count_cons] at hcount
              have : (x == k) = false := by rw [beq_eq_false_iff_ne]; exact hx
              rw [this] at hcount
              simpa using hcount) e]

theorem scanStepStrict_cons (q : key_cancellation_t) (qs : List key_cancellation_t)
    (buf tmp : List Nat) (j : Nat) :
    scanStepStrict (q :: qs) buf tmp j =
      scanStepStrict qs buf
        (if q.press = tmp.getD j 0 then
          (if key_cancellation_is_key_in_buffer buf q.unpress then
            clearAllUpTo tmp q.unpress j
          else tmp)
        else tmp) j := rfl

theorem scanStep_eq_strict (buf : List Nat) (hnd : buf.Nodup) (h0 : 0 ∉ buf) (j : Nat) :
    ∀ (T : List key_cancellation_t) (temp : List Nat), Desc buf temp →
      scanStep T buf temp j = scanStepStrict T buf temp j ∧
      Desc buf (scanStep T buf temp j) := by
  intro T
  induction T with
  | nil => intro temp hdesc; exact ⟨rfl, hdesc⟩
  | cons q qs ih =>
      intro temp hdesc
      rw [scanStep_cons, scanStepStrict_cons]
      by_cases hcond : q.press = temp.getD j 0
      · rw [if_pos hcond, if_pos hcond]
        by_cases hbuf : key_cancellation_is_key_in_buffer buf q.unpress = true
        · rw [if_pos hbuf, if_pos hbuf]
          have hmem : q.unpress ∈ buf := (in_buffer_iff buf q.unpress).mp hbuf
          have hkz : q.unpress ≠ 0 := fun hz => h0 (hz ▸ hmem)
          have hcnt : temp.count q.unpress ≤ 1 :=
            desc_count_le_one buf temp hdesc hnd q.unpress hkz
          rw [dkbt_eq_clearAll temp q.unpress hcnt j]
          exact ih (clearAllUpTo temp q.unpress j) (desc_clearAll buf temp hdesc q.unpress j)
        · rw [if_neg hbuf, if_neg hbuf]
          exact ih temp hdesc
      · rw [if_neg hcond, if_neg hcond]
        exact ih temp hdesc

theorem raux_eq_strict (T : List key_cancellation_t) (buf : List Nat)
    (hnd : buf.Nodup) (h0 : 0 ∉ buf) :
    ∀ (n : Nat) (temp : List Nat), Desc buf temp →
      reconScanAux T buf n temp = reconScanStrictAux T buf n temp := by
  intro n
  induction n with
  | zero => intro temp _; rfl
  | succ m ih =>
      intro temp hdesc
      simp only [reconScanAux, reconScanStrictAux]
      obtain ⟨heq, hdesc2⟩ := scanStep_eq_strict buf hnd h0 m T temp hdesc
      rw [← heq]
      exact ih (scanStep T buf temp m) hdesc2

theorem fold_del_only_subset (acts : List HostAction)
    (hall : ∀ a ∈ acts, ∃ u, a = HostAction.del_key u) :
    ∀ (host : Finset Nat) (m : Nat), m ∈ acts.foldl applyAction host → m ∈ host := by
  induction acts with
  | nil => intro host m h; exact h
  | cons a acts ih =>
      intro host m h
      rcases hall a (List.mem_cons_self a acts) with ⟨u, rfl⟩
      have := ih (fun b hb => hall b (List.mem_cons_of_mem _ hb)) (host.erase u) m h
      exact Finset.mem_of_mem_erase this

theorem fold_del_mem_notmem (acts : List HostAction)
    (hall : ∀ a ∈ acts, ∃ u, a = HostAction.del_key u) :
    ∀ (host : Finset Nat) (m : Nat), HostAction.del_key m ∈ acts →
      m ∉ acts.foldl applyAction host := by
  induction acts with
  | nil => intro host m h; cases h
  | cons a acts ih =>
      intro host m hmem hfold
      rcases List.mem_cons.mp hmem with heq | hmem2
      · subst heq
        have := fold_del_only_subset acts
          (fun b hb => hall b (List.mem_cons_of_mem _ hb)) (host.erase m) m hfold
        exact (Finset.not_mem_erase m host) this
      · rcases hall a (List.mem_cons_self a acts) with ⟨u, rfl⟩
        exact ih (fun b hb => hall b (List.mem_cons_of_mem _ hb)) (host.erase u) m hmem2 hfold

theorem fold_mem_imp (acts : List HostAction) :
    ∀ (host : Finset Nat) (m : Nat), m ∈ acts.foldl applyAction host →
      m ∈ host ∨ HostAction.add_key m ∈ acts := by
  induction acts with
  | nil => intro host m h; exact Or.inl h
  | cons a acts ih =>
      intro host m h
      rcases ih (applyAction host a) m h with h2 | h2
      · cases a with
        | del_key u => exact Or.inl (Finset.mem_of_mem_erase h2)
        | add_key u =>
            rcases Finset.mem_insert.mp h2 with rfl | h3
            · exact Or.inr (List.mem_cons_self _ _)
            · exact Or.inl h3
      · exact Or.inr (List.mem_cons_of_mem a h2)

theorem pe_all_del (T : List key_cancellation_t) (k : Nat) :
    ∀ a ∈ pressEmissions T k, ∃ u, a = HostAction.del_key u := by
  intro a ha
  rw [pressEmissions_eq_filterMap] at ha
  rcases List.mem_filterMap.mp ha with ⟨p, _, hp⟩
  by_cases h : p.press = k
  · rw [if_pos h] at hp
    exact ⟨p.unpress, (Option.some_inj.mp hp).symm⟩
  · rw [if_neg h] at hp
    cases hp

theorem pe_mem (T : List key_cancellation_t) (P U : Nat)
    (hmem : (⟨P, U⟩ : key_cancellation_t) ∈ T) :
    HostAction.del_key U ∈ pressEmissions T P := by
  rw [pressEmissions_eq_filterMap]
  exact List.mem_filterMap.mpr ⟨⟨P, U⟩, hmem, by simp⟩

theorem ce_add_mem (buf : List Nat) :
    ∀ (temp : List Nat) (m : Nat), HostAction.add_key m ∈ compareEmit buf temp → m ∈ buf := by
  induction buf with
  | nil => intro temp m h; cases h
  | cons b bs ih =>
      intro temp m h
      cases temp with
      | nil => cases h
      | cons t ts =>
          simp only [compareEmit] at h
          rcases List.mem_append.mp h with h2 | h2
          · split at h2
            · split at h2
              · simp at h2
              · cases h2
            · simp only [List.mem_singleton] at h2
              rcases h2 with ⟨rfl⟩
              exact List.mem_cons_self b bs
          · exact List.mem_cons_of_mem b (ih ts m h2)

theorem ce_fold_not_mem (buf : List Nat) :
    ∀ (temp : List Nat) (host : Finset Nat) (m : Nat), m ∉ buf →
      (m ∈ (compareEmit buf temp).foldl applyAction host ↔ m ∈ host) := by
  induction buf with
  | nil => intro temp host m _; simp [compareEmit]
  | cons b bs ih =>
      intro temp host m hnotin
      have hmb : m ≠ b := fun h => hnotin (h ▸ List.mem_cons_self b bs)
      have hmbs : m ∉ bs := fun h => hnotin (List.mem_cons_of_mem b h)
      cases temp with
      | nil => simp [compareEmit]
      | cons t ts =>
          simp only [compareEmit, List.foldl_append]
          rw [ih ts _ m hmbs]
          split
          · split
            · simp [applyAction, Finset.mem_erase, hmb]
            · simp
          · simp [applyAction, Finset.mem_insert, hmb]

theorem ce_fold_pos (buf : List Nat) :
    ∀ (temp : List Nat) (p m : Nat) (host : Finset Nat), buf.Nodup →
      p < buf.length → temp.length = buf.length →
      buf.getD p 0 = m → m ≠ 0 →
      ((temp.getD p 0 = m → m ∈ (compareEmit buf temp).foldl applyAction host) ∧
       (temp.getD p 0 = 0 → m ∉ (compareEmit buf temp).foldl applyAction host)) := by
  induction buf with
  | nil => intro temp p m host _ hp; simp at hp
  | cons b bs ih =>
      intro temp p m host hnd hp hlen hg hm0
      rcases List.nodup_cons.mp hnd with ⟨hb, hbs⟩
      cases temp with
      | nil => simp at hlen
      | cons t ts =>
          simp only [List.length_cons, Nat.succ.injEq] at hlen
          cases p with
          | zero =>
              simp only [List.getD_cons_zero] at hg ⊢
              have hmb : m ∉ bs := by rw [← hg]; exact hb
              constructor
              · intro ht
                have h1 : compareEmit (b :: bs) (t :: ts)
                    = [HostAction.add_key b] ++ compareEmit bs ts := by
                  simp only [compareEmit]
                  rw [ht, ← hg, if_neg (by simp : ¬(b ≠ b))]
                rw [h1, List.foldl_append, ce_fold_not_mem bs ts _ m hmb]
                simp [applyAction, ← hg]
              · intro ht
                have hb0 : b ≠ 0 := by rw [hg]; exact hm0
                have h1 : compareEmit (b :: bs) (t :: ts)
                    = [HostAction.del_key b] ++ compareEmit bs ts := by
                  simp only [compareEmit]
                  rw [ht, if_pos hb0, if_pos rfl]
                rw [h1, List.foldl_append, ce_fold_not_mem bs ts _ m hmb]
                simp [applyAction, ← hg]
          | succ p =>
              simp only [List.getD_cons_succ] at hg ⊢
              have hplen : p < bs.length := by simpa using hp
              have hmbs : m ∈ bs := hg ▸ getD_mem_of_lt bs p hplen
              have hmb : m ≠ b := fun h => hb (h ▸ hmbs)
              simp only [compareEmit, List.foldl_append]
              exact ih ts p m _ hbs hplen hlen hg hm0

theorem reconScan_length (table : List key_cancellation_t) (buf : List Nat) :
    (reconScan table buf).length = buf.length := by
  show (reconScanAux table buf buf.length buf).length = buf.length
  rw [ra_length]

theorem reconScan_getD_or (table : List key_cancellation_t) (buf : List Nat) (i : Nat) :
    (reconScan table buf).getD i 0 = buf.getD i 0 ∨ (reconScan table buf).getD i 0 = 0 :=
  ra_getD_or table buf i buf.length buf

theorem reconScan_key (table : List key_cancellation_t) (buf : List Nat) (pa pb A B : Nat)
    (hnd : buf.Nodup) (hpa : buf.getD pa 0 = A) (hpb : buf.getD pb 0 = B)
    (hlt : pa < pb) (hpblen : pb < buf.length) (hA0 : A ≠ 0) (hB0 : B ≠ 0)
    (hBA : (⟨B, A⟩ : key_cancellation_t) ∈ table) (hAmem : A ∈ buf) :
    (reconScan table buf).getD pa 0 = 0 ∨ (reconScan table buf).getD pb 0 ≠ B := by
  apply ra_clears table buf pa pb A B hBA ((in_buffer_iff buf A).mpr hAmem) hA0 hB0 hlt
    buf.length buf hpblen ?_ (Or.inl hpa) hpb
  intro i hi
  exact getD_nodup_inj buf hnd i pa A hA0 hi hpa

theorem buffer_lt_cap (table : List key_cancellation_t)
    (hcap : (table.map key_cancellation_t.press).toFinset.card ≤ KEYREPORT_BUFFER_SIZE)
    (buffer : List Nat) (hnd : buffer.Nodup)
    (hsub : ∀ m ∈ buffer, key_cancellation_is_key_in_press_list table m = true)
    (k : Nat) (hk : key_cancellation_is_key_in_press_list table k = true)
    (hknot : k ∉ buffer) : buffer.length < KEYREPORT_BUFFER_SIZE := by
  have hmemP : ∀ m, key_cancellation_is_key_in_press_list table m = true →
      m ∈ (table.map key_cancellation_t.press).toFinset := by
    intro m hm
    rcases (in_press_list_iff table m).mp hm with ⟨p, hp, he⟩
    rw [List.mem_toFinset]
    exact List.mem_map.mpr ⟨p, hp, he⟩
  have hsubF : insert k buffer.toFinset ⊆ (table.map key_cancellation_t.press).toFinset := by
    intro m hm
    rcases Finset.mem_insert.mp hm with rfl | hm2
    · exact hmemP m hk
    · exact hmemP m (hsub m (List.mem_toFinset.mp hm2))
  have h1 : (insert k buffer.toFinset).card = buffer.toFinset.card + 1 :=
    Finset.card_insert_of_not_mem (by rw [List.mem_toFinset]; exact hknot)
  have h2 : buffer.toFinset.card = buffer.length := List.toFinset_card_of_nodup hnd
  have h3 := Finset.card_le_card hsubF
  omega

theorem process_press_char (table : List key_cancellation_t) (st : KCState) (k : Nat) (r : Bool)
    (hcfg : st.config = ⟨true, r⟩) (hbk : IS_BASIC_KEYCODE k = true) :
    (process_key_cancellation table st k true).pass = true ∧
    (process_key_cancellation table st k true).state.config = st.config ∧
    (process_key_cancellation table st k true).state.buffer =
      (if r = true ∧ key_cancellation_is_key_in_press_list table k = true
       then add_key_buffer st.buffer k else st.buffer) ∧
    ((process_key_cancellation table st k true).actions = [] ∨
     (process_key_cancellation table st k true).actions = pressEmissions table k) ∧
    (key_cancellation_is_key_in_press_list table k = true →
      (process_key_cancellation table st k true).actions = pressEmissions table k) := by
  have hen : st.config.key_cancellation_enable = true := by rw [hcfg]
  have hrec : st.config.key_cancellation_recovery_enable = r := by rw [hcfg]
  cases r with
  | false =>
      rw [process_press_norecovery table st k hen hrec hbk]
      refine ⟨rfl, rfl, by simp, Or.inr rfl, fun _ => rfl⟩
  | true =>
      by_cases hk : key_cancellation_is_key_in_press_list table k = true
      · rw [process_press_recovery table st k hen hrec hbk hk]
        refine ⟨rfl, rfl, by simp [hk], Or.inr rfl, fun _ => rfl⟩
      · rw [Bool.not_eq_true] at hk
        rw [process_press_notinlist table st k hen hrec hbk hk]
        refine ⟨?_, ?_, ?_, ?_, ?_⟩
        · split <;> rfl
        · split <;> rfl
        · split <;> simp [hk]
        · split
          · exact Or.inl rfl
          · exact Or.inr rfl
        · intro h
          rw [hk] at h
          cases h

theorem sysInv_press (table : List key_cancellation_t) (A B : Nat) (r : Bool)
    (hAB : (⟨A, B⟩ : key_cancellation_t) ∈ table)
    (hBA : (⟨B, A⟩ : key_cancellation_t) ∈ table)
    (hne : A ≠ B)
    (hcap : (table.map key_cancellation_t.press).toFinset.card ≤ KEYREPORT_BUFFER_SIZE)
    (s : SysState) (hinv : SysInv table A B r s) (k : Nat)
    (hbk : IS_BASIC_KEYCODE k = true) :
    SysInv table A B r (stepSys table s k true) := by
  obtain ⟨hcfg, hhp, hnb, hnd, hbasic, hpressL, hbp, hphb, hcomp, hnorec⟩ := hinv
  obtain ⟨hpass, hconf, hbufeq, hacts, hacts2⟩ :=
    process_press_char table s.kc k r hcfg hbk
  have hall : ∀ a ∈ (process_key_cancellation table s.kc k true).actions,
      ∃ u, a = HostAction.del_key u := by
    rcases hacts with h | h
    · rw [h]; intro a ha; cases ha
    · rw [h]; exact pe_all_del table k
  have hstep : stepSys table s k true =
      { kc := (process_key_cancellation table s.kc k true).state,
        phys := insert k s.phys,
        host := insert k
          ((process_key_cancellation table s.kc k true).actions.foldl applyAction s.host) } := by
    simp [stepSys, hpass]
  rw [hstep]
  refine ⟨?_, ?_, ?_, ?_, ?_, ?_, ?_, ?_, ?_, ?_⟩
  · show (process_key_cancellation table s.kc k true).state.config = ⟨true, r⟩
    rw [hconf, hcfg]
  · intro m hm
    rcases Finset.mem_insert.mp hm with rfl | hm2
    · exact Finset.mem_insert_self m s.phys
    · exact Finset.mem_insert_of_mem (hhp m (fold_del_only_subset _ hall s.host m hm2))
  · rintro ⟨hA', hB'⟩
    by_cases hkA : k = A
    · subst hkA
      rcases Finset.mem_insert.mp hB' with h | h
      · exact hne h.symm
      · have hpk : key_cancellation_is_key_in_press_list table k = true :=
          (in_press_list_iff table k).mpr ⟨⟨k, B⟩, hAB, rfl⟩
        have hdelB : HostAction.del_key B ∈
            (process_key_cancellation table s.kc k true).actions := by
          rw [hacts2 hpk]
          exact pe_mem table k B hAB
        exact fold_del_mem_notmem _ hall s.host B hdelB h
    · by_cases hkB : k = B
      · subst hkB
        rcases Finset.mem_insert.mp hA' with h | h
        · exact hne h
        · have hpk : key_cancellation_is_key_in_press_list table k = true :=
            (in_press_list_iff table k).mpr ⟨⟨k, A⟩, hBA, rfl⟩
          have hdelA : HostAction.del_key A ∈
              (process_key_cancellation table s.kc k true).actions := by
            rw [hacts2 hpk]
            exact pe_mem table k A hBA
          exact fold_del_mem_notmem _ hall s.host A hdelA h
      · apply hnb
        constructor
        · rcases Finset.mem_insert.mp hA' with h | h
          · exact absurd h.symm hkA
          · exact fold_del_only_subset _ hall s.host A h
        · rcases Finset.mem_insert.mp hB' with h | h
          · exact absurd h.symm hkB
          · exact fold_del_only_subset _ hall s.host B h
  · show (process_key_cancellation table s.kc k true).state.buffer.Nodup
    rw [hbufeq]
    split
    · exact add_key_buffer_nodup _ _ hnd
    · exact hnd
  · show ∀ m, m ∈ (process_key_cancellation table s.kc k true).state.buffer →
      IS_BASIC_KEYCODE m = true
    rw [hbufeq]
    split
    · intro m hm
      rcases add_key_buffer_mem_iff _ _ _ hm with h | rfl
      · exact hbasic m h
      · exact hbk
    · exact hbasic
  · show ∀ m, m ∈ (process_key_cancellation table s.kc k true).state.buffer →
      key_cancellation_is_key_in_press_list table m = true
    rw [hbufeq]
    split
    · next hcond =>
        intro m hm
        rcases add_key_buffer_mem_iff _ _ _ hm with h | rfl
        · exact hpressL m h
        · exact hcond.2
    · exact hpressL
  · show ∀ m, m ∈ (process_key_cancellation table s.kc k true).state.buffer →
      m ∈ insert k s.phys
    rw [hbufeq]
    split
    · intro m hm
      rcases add_key_buffer_mem_iff _ _ _ hm with h | rfl
      · exact Finset.mem_insert_of_mem (hbp m h)
      · exact Finset.mem_insert_self m s.phys
    · intro m hm
      exact Finset.mem_insert_of_mem (hbp m hm)
  · intro m hm
    rcases Finset.mem_insert.mp hm with rfl | h
    · exact hbk
    · exact hphb m h
  · intro hr m hm hmp
    show m ∈ (process_key_cancellation table s.kc k true).state.buffer
    rcases Finset.mem_insert.mp hm with rfl | hmem
    · rw [hbufeq, if_pos ⟨hr, hmp⟩]
      by_cases hkin : m ∈ s.kc.buffer
      · exact mem_add_key_buffer_of_mem _ _ _ hkin
      · exact self_mem_add_key_buffer _ _
          (buffer_lt_cap table hcap _ hnd hpressL m hmp hkin)
    · have hmbuf : m ∈ s.kc.buffer := hcomp hr m hmem hmp
      rw [hbufeq]
      split
      · exact mem_add_key_buffer_of_mem _ _ _ hmbuf
      · exact hmbuf
  · intro hr
    show (process_key_cancellation table s.kc k true).state.buffer = []
    rw [hbufeq, if_neg (by simp [hr])]
    exact hnorec hr

theorem sysInv_release_norec (table : List key_cancellation_t) (A B : Nat)
    (s : SysState) (hinv : SysInv table A B false s) (k : Nat) :
    SysInv table A B false (stepSys table s k false) := by
  obtain ⟨hcfg, hhp, hnb, hnd, hbasic, hpressL, hbp, hphb, hcomp, hnorec⟩ := hinv
  have hrec : s.kc.config.key_cancellation_recovery_enable = false := by rw [hcfg]
  have hproc := process_release_norecovery table s.kc k hrec
  have hstep : stepSys table s k false =
      { kc := s.kc, phys := s.phys.erase k, host := s.host.erase k } := by
    simp [stepSys, hproc]
  rw [hstep]
  refine ⟨hcfg, ?_, ?_, hnd, hbasic, hpressL, ?_, ?_, ?_, hnorec⟩
  · intro m hm
    obtain ⟨h1, h2⟩ := Finset.mem_erase.mp hm
    exact Finset.mem_erase.mpr ⟨h1, hhp m h2⟩
  · rintro ⟨hA', hB'⟩
    exact hnb ⟨(Finset.mem_erase.mp hA').2, (Finset.mem_erase.mp hB').2⟩
  · intro m hm
    rw [hnorec rfl] at hm
    cases hm
  · intro m hm
    exact hphb m (Finset.mem_erase.mp hm).2
  · intro h
    simp at h

theorem sysInv_release_rec (table : List key_cancellation_t) (A B : Nat)
    (hAB : (⟨A, B⟩ : key_cancellation_t) ∈ table)
    (hBA : (⟨B, A⟩ : key_cancellation_t) ∈ table)
    (hne : A ≠ B)
    (s : SysState) (hinv : SysInv table A B true s) (k : Nat)
    (hbk : IS_BASIC_KEYCODE k = true) :
    SysInv table A B true (stepSys table s k false) := by
  obtain ⟨hcfg, hhp, hnb, hnd, hbasic, hpressL, hbp, hphb, hcomp, hnorec⟩ := hinv
  have hen : s.kc.config.key_cancellation_enable = true := by rw [hcfg]
  have hrec : s.kc.config.key_cancellation_recovery_enable = true := by rw [hcfg]
  have hproc := process_release_recovery table s.kc k hen hrec hbk
  set buf1 := (if key_cancellation_is_key_in_press_list table k then
      del_key_buffer s.kc.buffer k else s.kc.buffer) with hbuf1def
  have hproc2 : process_key_cancellation table s.kc k false =
      (if buf1.length = 0 then (⟨true, ⟨s.kc.config, buf1⟩, []⟩ : KCResult)
       else ⟨true, ⟨s.kc.config, buf1⟩, compareEmit buf1 (reconScan table buf1)⟩) := hproc
  have hmem1 : ∀ m, m ∈ buf1 ↔ (m ∈ s.kc.buffer ∧ m ≠ k) := by
    intro m
    rw [hbuf1def]
    split
    · exact mem_del_key_buffer_iff s.kc.buffer k m hnd
    · next hknp =>
        constructor
        · intro hm
          refine ⟨hm, ?_⟩
          rintro rfl
          rw [hpressL m hm] at hknp
          exact hknp rfl
        · exact fun h => h.1
  have hnd1 : buf1.Nodup := by
    rw [hbuf1def]
    split
    · exact del_key_buffer_nodup _ _ hnd
    · exact hnd
  have hbasic1 : ∀ m, m ∈ buf1 → IS_BASIC_KEYCODE m = true :=
    fun m hm => hbasic m ((hmem1 m).mp hm).1
  have hpressL1 : ∀ m, m ∈ buf1 → key_cancellation_is_key_in_press_list table m = true :=
    fun m hm => hpressL m ((hmem1 m).mp hm).1
  have hbp1 : ∀ m, m ∈ buf1 → m ∈ s.phys :=
    fun m hm => hbp m ((hmem1 m).mp hm).1
  by_cases hb0 : buf1.length = 0
  · have hres : process_key_cancellation table s.kc k false
        = ⟨true, ⟨s.kc.config, buf1⟩, []⟩ := by
      rw [hproc2, if_pos hb0]
    have hstep : stepSys table s k false =
        { kc := ⟨s.kc.config, buf1⟩, phys := s.phys.erase k, host := s.host.erase k } := by
      simp [stepSys, hres]
    rw [hstep]
    refine ⟨hcfg, ?_, ?_, hnd1, hbasic1, hpressL1, ?_, ?_, ?_, ?_⟩
    · intro m hm
      obtain ⟨h1, h2⟩ := Finset.mem_erase.mp hm
      exact Finset.mem_erase.mpr ⟨h1, hhp m h2⟩
    · rintro ⟨hA', hB'⟩
      exact hnb ⟨(Finset.mem_erase.mp hA').2, (Finset.mem_erase.mp hB').2⟩
    · intro m hm
      exact Finset.mem_erase.mpr ⟨((hmem1 m).mp hm).2, hbp1 m hm⟩
    · intro m hm
      exact hphb m (Finset.mem_erase.mp hm).2
    · intro _ m hm hmp
      obtain ⟨hmk, hmphys⟩ := Finset.mem_erase.mp hm
      exact (hmem1 m).mpr ⟨hcomp rfl m hmphys hmp, hmk⟩
    · intro h
      simp at h
  · have hres : process_key_cancellation table s.kc k false
        = ⟨true, ⟨s.kc.config, buf1⟩, compareEmit buf1 (reconScan table buf1)⟩ := by
      rw [hproc2, if_neg hb0]
    have hstep : stepSys table s k false =
        { kc := ⟨s.kc.config, buf1⟩, phys := s.phys.erase k,
          host := ((compareEmit buf1 (reconScan table buf1)).foldl applyAction s.host).erase k } := by
      simp [stepSys, hres]
    rw [hstep]
    set temp := reconScan table buf1 with htemp
    have hlen : temp.length = buf1.length := reconScan_length table buf1
    refine ⟨hcfg, ?_, ?_, hnd1, hbasic1, hpressL1, ?_, ?_, ?_, ?_⟩
    · intro m hm
      obtain ⟨h1, h2⟩ := Finset.mem_erase.mp hm
      refine Finset.mem_erase.mpr ⟨h1, ?_⟩
      rcases fold_mem_imp _ s.host m h2 with h3 | h3
      · exact hhp m h3
      · exact hbp1 m (ce_add_mem buf1 temp m h3)
    · rintro ⟨hA', hB'⟩
      obtain ⟨hAne, hAf⟩ := Finset.mem_erase.mp hA'
      obtain ⟨hBne, hBf⟩ := Finset.mem_erase.mp hB'
      by_cases hAb : A ∈ buf1 <;> by_cases hBb : B ∈ buf1
      · obtain ⟨pa, hpa_lt, hpa⟩ := mem_getD buf1 A hAb
        obtain ⟨pb, hpb_lt, hpb⟩ := mem_getD buf1 B hBb
        have hA0 : A ≠ 0 := basic_ne_zero (hbasic1 A hAb)
        have hB0 : B ≠ 0 := basic_ne_zero (hbasic1 B hBb)
        have hpab : pa ≠ pb := by
          rintro rfl
          exact hne (hpa.symm.trans hpb)
        have hAsurv : temp.getD pa 0 = A := by
          rcases reconScan_getD_or table buf1 pa with h | h
          · rw [← htemp] at h
            rw [h, hpa]
          · rw [← htemp] at h
            exact absurd hAf ((ce_fold_pos buf1 temp pa A s.host hnd1 hpa_lt hlen hpa hA0).2 h)
        have hBsurv : temp.getD pb 0 = B := by
          rcases reconScan_getD_or table buf1 pb with h | h
          · rw [← htemp] at h
            rw [h, hpb]
          · rw [← htemp] at h
            exact absurd hBf ((ce_fold_pos buf1 temp pb B s.host hnd1 hpb_lt hlen hpb hB0).2 h)
        rcases Nat.lt_or_ge pa pb with hlt | hge
        · rcases reconScan_key table buf1 pa pb A B hnd1 hpa hpb hlt hpb_lt hA0 hB0 hBA hAb
            with h | h
          · rw [← htemp, hAsurv] at h
            exact hA0 h
          · rw [← htemp] at h
            exact h hBsurv
        · have hlt2 : pb < pa := by omega
          rcases reconScan_key table buf1 pb pa B A hnd1 hpb hpa hlt2 hpa_lt hB0 hA0 hAB hBb
            with h | h
          · rw [← htemp, hBsurv] at h
            exact hB0 h
          · rw [← htemp] at h
            exact h hAsurv
      · have hBhost : B ∈ s.host := (ce_fold_not_mem buf1 temp s.host B hBb).mp hBf
        have hBpl : key_cancellation_is_key_in_press_list table B = true :=
          (in_press_list_iff table B).mpr ⟨⟨B, A⟩, hBA, rfl⟩
        exact hBb ((hmem1 B).mpr ⟨hcomp rfl B (hhp B hBhost) hBpl, hBne⟩)
      · have hAhost : A ∈ s.host := (ce_fold_not_mem buf1 temp s.host A hAb).mp hAf
        have hApl : key_cancellation_is_key_in_press_list table A = true :=
          (in_press_list_iff table A).mpr ⟨⟨A, B⟩, hAB, rfl⟩
        exact hAb ((hmem1 A).mpr ⟨hcomp rfl A (hhp A hAhost) hApl, hAne⟩)
      · exact hnb ⟨(ce_fold_not_mem buf1 temp s.host A hAb).mp hAf,
          (ce_fold_not_mem buf1 temp s.host B hBb).mp hBf⟩
    · intro m hm
      exact Finset.mem_erase.mpr ⟨((hmem1 m).mp hm).2, hbp1 m hm⟩
    · intro m hm
      exact hphb m (Finset.mem_erase.mp hm).2
    · intro _ m hm hmp
      obtain ⟨hmk, hmphys⟩ := Finset.mem_erase.mp hm
      exact (hmem1 m).mpr ⟨hcomp rfl m hmphys hmp, hmk⟩
    · intro h
      simp at h

theorem sysInv_step (table : List key_cancellation_t) (A B : Nat) (r : Bool)
    (hAB : (⟨A, B⟩ : key_cancellation_t) ∈ table)
    (hBA : (⟨B, A⟩ : key_cancellation_t) ∈ table)
    (hne : A ≠ B)
    (hcap : (table.map key_cancellation_t.press).toFinset.card ≤ KEYREPORT_BUFFER_SIZE)
    (s : SysState) (hinv : SysInv table A B r s) (k : Nat) (p : Bool)
    (hbk : IS_BASIC_KEYCODE k = true) :
    SysInv table A B r (stepSys table s k p) := by
  cases p with
  | true => exact sysInv_press table A B r hAB hBA hne hcap s hinv k hbk
  | false =>
      cases r with
      | false => exact sysInv_release_norec table A B s hinv k
      | true => exact sysInv_release_rec table A B hAB hBA hne s hinv k hbk

theorem sysInv_run (table : List key_cancellation_t) (A B : Nat) (r : Bool)
    (hAB : (⟨A, B⟩ : key_cancellation_t) ∈ table)
    (hBA : (⟨B, A⟩ : key_cancellation_t) ∈ table)
    (hne : A ≠ B)
    (hcap : (table.map key_cancellation_t.press).toFinset.card ≤ KEYREPORT_BUFFER_SIZE) :
    ∀ (evs : List (Nat × Bool)) (s : SysState), SysInv table A B r s →
      (∀ e ∈ evs, IS_BASIC_KEYCODE e.1 = true) →
      SysInv table A B r (runSys table s evs) := by
  intro evs
  induction evs with
  | nil => intro s hinv _; exact hinv
  | cons e evs ih =>
      intro s hinv hbasic
      rcases e with ⟨k, p⟩
      exact ih (stepSys table s k p)
        (sysInv_step table A B r hAB hBA hne hcap s hinv k p
          (hbasic (k, p) (List.mem_cons_self _ _)))
        (fun e he => hbasic e (List.mem_cons_of_mem _ he))

theorem sysInv_init (table : List key_cancellation_t) (A B : Nat) (r : Bool) :
    SysInv table A B r (initSys true r) := by
  refine ⟨rfl, ?_, ?_, ?_, ?_, ?_, ?_, ?_, ?_, ?_⟩ <;> simp [initSys]

theorem applyBufOps_inv (ops : List BufOp) (buf : List Nat)
    (hnd : buf.Nodup) (hlen : buf.length ≤ KEYREPORT_BUFFER_SIZE) :
    (applyBufOps buf ops).Nodup ∧ (applyBufOps buf ops).length ≤ KEYREPORT_BUFFER_SIZE := by
  induction ops generalizing buf with
  | nil => exact ⟨hnd, hlen⟩
  | cons op ops ih =>
      cases op with
      | addOp k =>
          exact ih (add_key_buffer buf k) (add_key_buffer_nodup buf k hnd)
            (add_key_buffer_length buf k hlen)
      | delOp k =>
          exact ih (del_key_buffer buf k) (del_key_buffer_nodup buf k hnd)
            (le_trans (del_key_buffer_length buf k) hlen)

theorem list_eq_pair (l : List Nat) (x y : Nat) (hlen : l.length = 2)
    (h0 : l.getD 0 0 = x) (h1 : l.getD 1 0 = y) : l = [x, y] := by
  rcases l with _ | ⟨a, _ | ⟨b, _ | c⟩⟩ <;> simp_all

theorem reconScan_singleton (table : List key_cancellation_t) (b : Nat) :
    reconScan table [b] = [b] := by
  show reconScanAux table [b] 1 [b] = [b]
  simp only [reconScanAux]
  rw [scanStep_at_zero]

/-- Claim C6: over every sequence of add and delete operations on the hold
buffer (started empty), no keycode appears twice and the element count never
exceeds the capacity 10; inserting an already-present keycode is a no-op,
and inserting into a full buffer is silently dropped, leaving entries and
count untouched. -/
theorem claim_C6_buffer_invariants (ops : List BufOp) (b : List Nat) (k : Nat) :
    ((applyBufOps [] ops).Nodup ∧ (applyBufOps [] ops).length ≤ KEYREPORT_BUFFER_SIZE) ∧
    (k ∈ b → add_key_buffer b k = b) ∧
    (KEYREPORT_BUFFER_SIZE ≤ b.length → add_key_buffer b k = b) := by
  refine ⟨applyBufOps_inv ops [] (by simp) (by simp), ?_, ?_⟩
  · intro hmem
    unfold add_key_buffer
    rw [if_pos ((in_buffer_iff b k).mpr hmem)]
  · intro hfull
    simp [add_key_buffer, hfull]

theorem claim_C6_witness :
    ((applyBufOps [] [BufOp.addOp 4, BufOp.addOp 4, BufOp.addOp 5, BufOp.delOp 4]).Nodup ∧
      (applyBufOps [] [BufOp.addOp 4, BufOp.addOp 4, BufOp.addOp 5, BufOp.delOp 4]).length
        ≤ KEYREPORT_BUFFER_SIZE) ∧
    add_key_buffer [7, 4, 9, 10, 11, 12, 13, 14, 15, 16] 4
      = [7, 4, 9, 10, 11, 12, 13, 14, 15, 16] ∧
    add_key_buffer [7, 4, 9, 10, 11, 12, 13, 14, 15, 16] 99
      = [7, 4, 9, 10, 11, 12, 13, 14, 15, 16] :=
  ⟨(claim_C6_buffer_invariants [BufOp.addOp 4, BufOp.addOp 4, BufOp.addOp 5, BufOp.delOp 4]
      [7, 4, 9, 10, 11, 12, 13, 14, 15, 16] 4).1,
   (claim_C6_buffer_invariants [] [7, 4, 9, 10, 11, 12, 13, 14, 15, 16] 4).2.1 (by decide),
   (claim_C6_buffer_invariants [] [7, 4, 9, 10, 11, 12, 13, 14, 15, 16] 99).2.2 (by decide)⟩

/-- Claim C5: for a press event that passes the admission filter (cancellation
enabled, basic keycode; the user hook is the always-allow default), the
handler returns true and its emitted actions are exactly one `del_key` of the
`unpress` field of each table entry whose `press` equals the keycode, in
table order — independent of the hold buffer, so in particular of whether
the `unpress` keycode is physically held. -/
theorem claim_C5_press_path (table : List key_cancellation_t) (st : KCState) (k : Nat)
    (hen : st.config.key_cancellation_enable = true)
    (hb : IS_BASIC_KEYCODE k = true) :
    (process_key_cancellation table st k true).pass = true ∧
    (process_key_cancellation table st k true).actions =
      table.filterMap
        (fun p => if p.press = k then some (HostAction.del_key p.unpress) else none) := by
  cases hrec : st.config.key_cancellation_recovery_enable with
  | false =>
      rw [process_press_norecovery table st k hen hrec hb]
      exact ⟨rfl, pressEmissions_eq_filterMap table k⟩
  | true =>
      cases hp : key_cancellation_is_key_in_press_list table k with
      | true =>
          rw [process_press_recovery table st k hen hrec hb hp]
          exact ⟨rfl, pressEmissions_eq_filterMap table k⟩
      | false =>
          rw [process_press_notinlist table st k hen hrec hb hp]
          have hnone : ∀ p ∈ table,
              (if p.press = k then some (HostAction.del_key p.unpress) else none) = none := by
            intro p hpm
            rw [if_neg]
            intro he
            have : key_cancellation_is_key_in_press_list table k = true :=
              (in_press_list_iff table k).mpr ⟨p, hpm, he⟩
            rw [hp] at this
            cases this
          split <;>
            exact ⟨rfl, by
              simp [pressEmissions_eq_filterMap, List.filterMap_eq_nil_iff.mpr hnone]⟩

theorem claim_C5_witness :
    (process_key_cancellation [⟨4, 5⟩, ⟨6, 5⟩, ⟨4, 30⟩] ⟨⟨true, true⟩, []⟩ 4 true).pass = true ∧
    (process_key_cancellation [⟨4, 5⟩, ⟨6, 5⟩, ⟨4, 30⟩] ⟨⟨true, true⟩, []⟩ 4 true).actions =
      ([⟨4, 5⟩, ⟨6, 5⟩, ⟨4, 30⟩] : List key_cancellation_t).filterMap
        (fun p => if p.press = 4 then some (HostAction.del_key p.unpress) else none) :=
  claim_C5_press_path [⟨4, 5⟩, ⟨6, 5⟩, ⟨4, 30⟩] ⟨⟨true, true⟩, []⟩ 4 (by rfl) (by decide)

/-- Claim C7: each of the six control keycodes, on its press edge, performs
exactly its mode operation on the flags, forwards nothing (returns false)
and emits nothing, leaving the hold buffer untouched; on its release edge it
is inert (returns true, changes nothing, emits nothing), for every mode
state; so a control keycode never enters the hold buffer and never reaches
the press-path or release-path algorithms. -/
theorem claim_C7_control_codes (table : List key_cancellation_t) (st : KCState) :
    (process_key_cancellation table st QK_KEY_CANCELLATION_ON true =
      ⟨false, ⟨key_cancellation_enable st.config, st.buffer⟩, []⟩) ∧
    (process_key_cancellation table st QK_KEY_CANCELLATION_OFF true =
      ⟨false, ⟨key_cancellation_disable st.config, st.buffer⟩, []⟩) ∧
    (process_key_cancellation table st QK_KEY_CANCELLATION_TOGGLE true =
      ⟨false, ⟨key_cancellation_toggle st.config, st.buffer⟩, []⟩) ∧
    (process_key_cancellation table st QK_KEY_CANCELLATION_RECOVERY_ON true =
      ⟨false, ⟨key_cancellation_recovery_enable st.config, st.buffer⟩, []⟩) ∧
    (process_key_cancellation table st QK_KEY_CANCELLATION_RECOVERY_OFF true =
      ⟨false, ⟨key_cancellation_recovery_disable st.config, st.buffer⟩, []⟩) ∧
    (process_key_cancellation table st QK_KEY_CANCELLATION_RECOVERY_TOGGLE true =
      ⟨false, ⟨key_cancellation_recovery_toggle st.config, st.buffer⟩, []⟩) ∧
    (∀ cc ∈ controlKeycodes, process_key_cancellation table st cc false = ⟨true, st, []⟩) := by
  refine ⟨?_, ?_, ?_, ?_, ?_, ?_, ?_⟩
  · simp [process_key_cancellation, QK_KEY_CANCELLATION_ON]
  · simp [process_key_cancellation, QK_KEY_CANCELLATION_ON, QK_KEY_CANCELLATION_OFF]
  · simp [process_key_cancellation, QK_KEY_CANCELLATION_ON, QK_KEY_CANCELLATION_OFF,
      QK_KEY_CANCELLATION_TOGGLE]
  · simp [process_key_cancellation, QK_KEY_CANCELLATION_ON, QK_KEY_CANCELLATION_OFF,
      QK_KEY_CANCELLATION_TOGGLE, QK_KEY_CANCELLATION_RECOVERY_ON]
  · simp [process_key_cancellation, QK_KEY_CANCELLATION_ON, QK_KEY_CANCELLATION_OFF,
      QK_KEY_CANCELLATION_TOGGLE, QK_KEY_CANCELLATION_RECOVERY_ON,
      QK_KEY_CANCELLATION_RECOVERY_OFF]
  · simp [process_key_cancellation, QK_KEY_CANCELLATION_ON, QK_KEY_CANCELLATION_OFF,
      QK_KEY_CANCELLATION_TOGGLE, QK_KEY_CANCELLATION_RECOVERY_ON,
      QK_KEY_CANCELLATION_RECOVERY_OFF, QK_KEY_CANCELLATION_RECOVERY_TOGGLE]
  · intro cc hcc
    have hsplit : cc = QK_KEY_CANCELLATION_ON ∨ cc = QK_KEY_CANCELLATION_OFF ∨
        cc = QK_KEY_CANCELLATION_TOGGLE ∨ cc = QK_KEY_CANCELLATION_RECOVERY_ON ∨
        cc = QK_KEY_CANCELLATION_RECOVERY_OFF ∨ cc = QK_KEY_CANCELLATION_RECOVERY_TOGGLE := by
      simpa [controlKeycodes] using hcc
    cases hen : st.config.key_cancellation_enable <;>
      rcases hsplit with rfl | rfl | rfl | rfl | rfl | rfl <;>
        simp [process_key_cancellation, hen, IS_BASIC_KEYCODE,
          QK_KEY_CANCELLATION_ON, QK_KEY_CANCELLATION_OFF,
          QK_KEY_CANCELLATION_TOGGLE, QK_KEY_CANCELLATION_RECOVERY_ON,
          QK_KEY_CANCELLATION_RECOVERY_OFF, QK_KEY_CANCELLATION_RECOVERY_TOGGLE]

theorem claim_C7_witness :
    process_key_cancellation [⟨4, 5⟩] ⟨⟨false, true⟩, [4]⟩ QK_KEY_CANCELLATION_TOGGLE true =
      ⟨false, ⟨key_cancellation_toggle ⟨false, true⟩, [4]⟩, []⟩ ∧
    process_key_cancellation [⟨4, 5⟩] ⟨⟨false, true⟩, [4]⟩ QK_KEY_CANCELLATION_TOGGLE false =
      ⟨true, ⟨⟨false, true⟩, [4]⟩, []⟩ :=
  ⟨(claim_C7_control_codes [⟨4, 5⟩] ⟨⟨false, true⟩, [4]⟩).2.2.1,
   (claim_C7_control_codes [⟨4, 5⟩] ⟨⟨false, true⟩, [4]⟩).2.2.2.2.2.2
     QK_KEY_CANCELLATION_TOGGLE (by decide)⟩

/-- Claim C8: with cancellation disabled, every event whose keycode is not a
control keycode passes through: the handler returns true, the engine state
(hold buffer and flags) is unchanged, and no synthetic host action is
emitted. -/
theorem claim_C8_disabled_passthrough (table : List key_cancellation_t) (st : KCState)
    (k : Nat) (pressed : Bool)
    (hen : st.config.key_cancellation_enable = false)
    (hk : k ∉ controlKeycodes) :
    process_key_cancellation table st k pressed = ⟨true, st, []⟩ := by
  have hsplit : ¬(k = QK_KEY_CANCELLATION_ON ∨ k = QK_KEY_CANCELLATION_OFF ∨
      k = QK_KEY_CANCELLATION_TOGGLE ∨ k = QK_KEY_CANCELLATION_RECOVERY_ON ∨
      k = QK_KEY_CANCELLATION_RECOVERY_OFF ∨ k = QK_KEY_CANCELLATION_RECOVERY_TOGGLE) := by
    simpa [controlKeycodes] using hk
  push_neg at hsplit
  obtain ⟨n1, n2, n3, n4, n5, n6⟩ := hsplit
  simp [process_key_cancellation, hen, n1, n2, n3, n4, n5, n6]

theorem claim_C8_witness :
    process_key_cancellation [⟨4, 5⟩] ⟨⟨false, true⟩, [6]⟩ 4 true =
      ⟨true, ⟨⟨false, true⟩, [6]⟩, []⟩ :=
  claim_C8_disabled_passthrough [⟨4, 5⟩] ⟨⟨false, true⟩, [6]⟩ 4 true (by rfl) (by decide)

/-- Claim C9: with the recovery flag off, a release event of a non-control
keycode passes through with no hold-buffer mutation and no synthetic host
action — even when cancellation is enabled and the buffer still holds stale
entries, which are retained. -/
theorem claim_C9_release_norecovery (table : List key_cancellation_t) (st : KCState) (k : Nat)
    (hrec : st.config.key_cancellation_recovery_enable = false)
    (hk : k ∉ controlKeycodes) :
    process_key_cancellation table st k false = ⟨true, st, []⟩ :=
  process_release_norecovery table st k hrec

theorem claim_C9_witness :
    process_key_cancellation [⟨4, 5⟩] ⟨⟨true, false⟩, [4, 6]⟩ 4 false =
      ⟨true, ⟨⟨true, false⟩, [4, 6]⟩, []⟩ :=
  claim_C9_release_norecovery [⟨4, 5⟩] ⟨⟨true, false⟩, [4, 6]⟩ 4 (by rfl) (by decide)

/-- Claim C2, as stated, is false: with the pair table `[(4,5)]` — a
cancellation pair making 4 cancel 5, cancellation and recovery enabled, no
other key held — the sequence press(4), press(5), release(4) makes the
release call emit nothing at all: no registration of the still-physically-
held keycode 5 is emitted, because 5 never appears as a `press` field and
therefore never entered the hold buffer, which is empty at release time. -/
theorem claim_C2_counterexample :
    (⟨4, 5⟩ : key_cancellation_t) ∈ ([⟨4, 5⟩] : List key_cancellation_t) ∧
    (process_key_cancellation [⟨4, 5⟩]
      (process_key_cancellation [⟨4, 5⟩]
        (process_key_cancellation [⟨4, 5⟩] ⟨⟨true, true⟩, []⟩ 4 true).state 5 true).state
      4 false).actions = [] := by
  decide

/-- Claim C2 (amended): with cancellation and recovery enabled, a pair
`(A, B)` in the table, and **B itself appearing as the `press` field of some
pair** (so that B is tracked by the hold buffer), the sequence press(A),
press(B), release(A) from the pristine state makes the release call emit
exactly one registration of the still-physically-held keycode B (no other
currently-held key cancels B: the only held key is B itself). -/
theorem claim_C2_amended (T : List key_cancellation_t) (A B : Nat)
    (hAB : (⟨A, B⟩ : key_cancellation_t) ∈ T)
    (hBpress : key_cancellation_is_key_in_press_list T B = true)
    (hne : A ≠ B)
    (hbA : IS_BASIC_KEYCODE A = true) (hbB : IS_BASIC_KEYCODE B = true) :
    (process_key_cancellation T
      (process_key_cancellation T
        (process_key_cancellation T ⟨⟨true, true⟩, []⟩ A true).state B true).state
      A false).actions = [HostAction.add_key B] := by
  have hpA : key_cancellation_is_key_in_press_list T A = true :=
    (in_press_list_iff T A).mpr ⟨⟨A, B⟩, hAB, rfl⟩
  have h1 : process_key_cancellation T ⟨⟨true, true⟩, []⟩ A true
      = ⟨true, ⟨⟨true, true⟩, [A]⟩, pressEmissions T A⟩ := by
    rw [process_press_recovery T ⟨⟨true, true⟩, []⟩ A rfl rfl hbA hpA]
    simp [add_key_buffer, key_cancellation_is_key_in_buffer, KEYREPORT_BUFFER_SIZE]
  have h2 : process_key_cancellation T ⟨⟨true, true⟩, [A]⟩ B true
      = ⟨true, ⟨⟨true, true⟩, [A, B]⟩, pressEmissions T B⟩ := by
    rw [process_press_recovery T ⟨⟨true, true⟩, [A]⟩ B rfl rfl hbB hBpress]
    have hadd : add_key_buffer [A] B = [A, B] := by
      simp [add_key_buffer, key_cancellation_is_key_in_buffer, KEYREPORT_BUFFER_SIZE, hne]
    rw [hadd]
  have h3 : process_key_cancellation T ⟨⟨true, true⟩, [A, B]⟩ A false
      = ⟨true, ⟨⟨true, true⟩, [B]⟩, [HostAction.add_key B]⟩ := by
    rw [process_release_recovery T ⟨⟨true, true⟩, [A, B]⟩ A rfl rfl hbA]
    have hdel : del_key_buffer [A, B] A = [B] := by
      simp [del_key_buffer]
    simp [hpA, hdel, reconScan_singleton, compareEmit]
  simp only [h1, h2, h3]

theorem claim_C2_witness :
    (process_key_cancellation [⟨4, 5⟩, ⟨5, 4⟩]
      (process_key_cancellation [⟨4, 5⟩, ⟨5, 4⟩]
        (process_key_cancellation [⟨4, 5⟩, ⟨5, 4⟩] ⟨⟨true, true⟩, []⟩ 4 true).state 5 true).state
      4 false).actions = [HostAction.add_key 5] :=
  claim_C2_amended [⟨4, 5⟩, ⟨5, 4⟩] 4 5 (by decide) (by decide) (by decide) (by decide) (by decide)

/-- Claim C1, as stated, is false: with the pair table `[(4,5),(6,5)]` —
pairs in which 4 cancels 5 and 6 also cancels 5 — cancellation and recovery
enabled, the sequence press(4), press(6), press(5), release(4), release(6)
gives: the release(4) reconciliation emits `[add_key 6]` (no registration of
5, consistent with the claim's first half), but the subsequent release(6)
call emits nothing at all — 5 is *not* recovered after release of 6,
contradicting "B is recovered only after release(C)".  (5 is not a `press`
keycode, so it never enters the hold buffer and is never recovered.) -/
theorem claim_C1_counterexample :
    (⟨4, 5⟩ : key_cancellation_t) ∈ ([⟨4, 5⟩, ⟨6, 5⟩] : List key_cancellation_t) ∧
    (⟨6, 5⟩ : key_cancellation_t) ∈ ([⟨4, 5⟩, ⟨6, 5⟩] : List key_cancellation_t) ∧
    (process_key_cancellation [⟨4, 5⟩, ⟨6, 5⟩]
      (process_key_cancellation [⟨4, 5⟩, ⟨6, 5⟩]
        (process_key_cancellation [⟨4, 5⟩, ⟨6, 5⟩]
          (process_key_cancellation [⟨4, 5⟩, ⟨6, 5⟩] ⟨⟨true, true⟩, []⟩ 4 true).state
          6 true).state
        5 true).state
      4 false).actions = [HostAction.add_key 6] ∧
    (process_key_cancellation [⟨4, 5⟩, ⟨6, 5⟩]
      (process_key_cancellation [⟨4, 5⟩, ⟨6, 5⟩]
        (process_key_cancellation [⟨4, 5⟩, ⟨6, 5⟩]
          (process_key_cancellation [⟨4, 5⟩, ⟨6, 5⟩]
            (process_key_cancellation [⟨4, 5⟩, ⟨6, 5⟩] ⟨⟨true, true⟩, []⟩ 4 true).state
            6 true).state
          5 true).state
        4 false).state
      6 false).actions = [] := by
  decide

/-- Claim C1 (amended): the suppressed key must have been pressed *before*
its suppressors (the press path never suppresses a key pressed afterwards)
and must itself appear as a `press` field so the hold buffer tracks it.
With `(A,B)` and `(C,B)` in the table, B in the press list, A, B, C distinct
basic keycodes, cancellation and recovery enabled: after press(B), press(A),
press(C), the release(A) reconciliation emits no registration of B — C, the
more recent still-held key, still suppresses it — and the subsequent
release(C) reconciliation emits exactly the registration of B. -/
theorem claim_C1_amended (T : List key_cancellation_t) (A B C : Nat)
    (hAB : (⟨A, B⟩ : key_cancellation_t) ∈ T)
    (hCB : (⟨C, B⟩ : key_cancellation_t) ∈ T)
    (hBpress : key_cancellation_is_key_in_press_list T B = true)
    (hab : A ≠ B) (hac : A ≠ C) (hbc : B ≠ C)
    (hbA : IS_BASIC_KEYCODE A = true) (hbB : IS_BASIC_KEYCODE B = true)
    (hbC : IS_BASIC_KEYCODE C = true) :
    HostAction.add_key B ∉
      (process_key_cancellation T
        (process_key_cancellation T
          (process_key_cancellation T
            (process_key_cancellation T ⟨⟨true, true⟩, []⟩ B true).state A true).state
          C true).state
        A false).actions ∧
    (process_key_cancellation T
      (process_key_cancellation T
        (process_key_cancellation T
          (process_key_cancellation T
            (process_key_cancellation T ⟨⟨true, true⟩, []⟩ B true).state A true).state
          C true).state
        A false).state
      C false).actions = [HostAction.add_key B] := by
  have hB0 : B ≠ 0 := basic_ne_zero hbB
  have hpA : key_cancellation_is_key_in_press_list T A = true :=
    (in_press_list_iff T A).mpr ⟨⟨A, B⟩, hAB, rfl⟩
  have hpC : key_cancellation_is_key_in_press_list T C = true :=
    (in_press_list_iff T C).mpr ⟨⟨C, B⟩, hCB, rfl⟩
  have h1 : process_key_cancellation T ⟨⟨true, true⟩, []⟩ B true
      = ⟨true, ⟨⟨true, true⟩, [B]⟩, pressEmissions T B⟩ := by
    rw [process_press_recovery T ⟨⟨true, true⟩, []⟩ B rfl rfl hbB hBpress]
    simp [add_key_buffer, key_cancellation_is_key_in_buffer, KEYREPORT_BUFFER_SIZE]
  have h2 : process_key_cancellation T ⟨⟨true, true⟩, [B]⟩ A true
      = ⟨true, ⟨⟨true, true⟩, [B, A]⟩, pressEmissions T A⟩ := by
    rw [process_press_recovery T ⟨⟨true, true⟩, [B]⟩ A rfl rfl hbA hpA]
    have hadd : add_key_buffer [B] A = [B, A] := by
      have : ¬(B = A) := fun h => hab h.symm
      simp [add_key_buffer, key_cancellation_is_key_in_buffer, KEYREPORT_BUFFER_SIZE, this]
    rw [hadd]
  have h3 : process_key_cancellation T ⟨⟨true, true⟩, [B, A]⟩ C true
      = ⟨true, ⟨⟨true, true⟩, [B, A, C]⟩, pressEmissions T C⟩ := by
    rw [process_press_recovery T ⟨⟨true, true⟩, [B, A]⟩ C rfl rfl hbC hpC]
    have hadd : add_key_buffer [B, A] C = [B, A, C] := by
      have hBC : ¬(B = C) := hbc
      have hAC : ¬(A = C) := hac
      simp [add_key_buffer, key_cancellation_is_key_in_buffer, KEYREPORT_BUFFER_SIZE, hBC, hAC]
    rw [hadd]
  -- the scan of release(A): snapshot [B, C] becomes [0, C]
  have hscanBC : reconScan T [B, C] = [0, C] := by
    have hlen2 : (reconScan T [B, C]).length = 2 := by
      show (reconScanAux T [B, C] 2 [B, C]).length = 2
      rw [ra_length]
      rfl
    have hstep : reconScan T [B, C] = scanStep T [B, C] [B, C] 1 := by
      show reconScanAux T [B, C] 2 [B, C] = _
      simp only [reconScanAux]
      rw [scanStep_at_zero]
    have huniq : ∀ i, ([B, C] : List Nat).getD i 0 = B → i = 0 := by
      intro i hi
      match i with
      | 0 => rfl
      | 1 =>
          exfalso
          simp only [List.getD_cons_succ, List.getD_cons_zero] at hi
          exact hbc hi.symm
      | (n + 2) =>
          exfalso
          simp only [List.getD_cons_succ] at hi
          have : ([] : List Nat).getD n 0 = 0 := by simp
          rw [this] at hi
          exact hB0 hi.symm
    have hz : (scanStep T [B, C] [B, C] 1).getD 0 0 = 0 := by
      apply ss_clears [B, C] 1 0 B C _ hB0 (by omega) T [B, C] hCB _ huniq _
      · rw [in_buffer_iff]
        simp
      · rfl
      · left; rfl
    have hc1 : (scanStep T [B, C] [B, C] 1).getD 1 0 = C :=
      ss_getD_of_ge T [B, C] 1 1 le_rfl [B, C]
    rw [hstep]
    exact list_eq_pair _ 0 C (by rw [ss_length]; rfl) hz hc1
  have h4 : process_key_cancellation T ⟨⟨true, true⟩, [B, A, C]⟩ A false
      = ⟨true, ⟨⟨true, true⟩, [B, C]⟩, [HostAction.del_key B, HostAction.add_key C]⟩ := by
    rw [process_release_recovery T ⟨⟨true, true⟩, [B, A, C]⟩ A rfl rfl hbA]
    have hdel : del_key_buffer [B, A, C] A = [B, C] := by
      have : ¬(B = A) := fun h => hab h.symm
      simp [del_key_buffer, this]
    simp [hpA, hdel, hscanBC, compareEmit, hB0]
  have h5 : process_key_cancellation T ⟨⟨true, true⟩, [B, C]⟩ C false
      = ⟨true, ⟨⟨true, true⟩, [B]⟩, [HostAction.add_key B]⟩ := by
    rw [process_release_recovery T ⟨⟨true, true⟩, [B, C]⟩ C rfl rfl hbC]
    have hdel : del_key_buffer [B, C] C = [B] := by
      simp [del_key_buffer, hbc]
    simp [hpC, hdel, reconScan_singleton, compareEmit]
  refine ⟨?_, ?_⟩
  · simp only [h1, h2, h3, h4]
    intro hmem
    simp only [List.mem_cons, List.not_mem_nil] at hmem
    rcases hmem with h | h | h
    · cases h
    · exact hbc (HostAction.add_key.injEq B C ▸ congrArg (fun a => a) h ▸ rfl)
    · cases h
  · simp only [h1, h2, h3, h4, h5]

/-- Claim C3, as stated, is false: with the (self-)pair table `[(4,4)]`
and hold buffer `[4]` — reachable by pressing 4 (4 is a `press` keycode)
and then releasing an unrelated basic key, which triggers a reconciliation
pass — at snapshot position `j = 0` the pair `(4,4)` matches and its
`unpress` 4 is in the buffer, yet the code's scan leaves the snapshot `[4]`:
the occurrence of 4 *at* position `j` is not cleared, while the claim's
"at or before position j" requires the snapshot to become `[0]`.  The pass
therefore emits `add_key 4` where the claim's rule would emit `del_key 4`. -/
theorem claim_C3_counterexample :
    reconScan [⟨4, 4⟩] [4] = [4] ∧
    reconScanSpec [⟨4, 4⟩] [4] = [0] ∧
    (process_key_cancellation [⟨4, 4⟩] ⟨⟨true, true⟩, [4]⟩ 5 false).actions
      = [HostAction.add_key 4] ∧
    compareEmit [4] (reconScanSpec [⟨4, 4⟩] [4]) = [HostAction.del_key 4] := by
  decide

/-- Claim C3 (amended): during a release-path reconciliation pass over a
hold buffer with no duplicates and no zero entry (the invariants of every
reachable buffer), the scan behaves exactly as the claim describes except
that each matched `unpress` keycode is cleared from the snapshot wherever it
occurs **strictly before** position `j` — never at `j` itself (and "every
occurrence" equals the single occurrence, since the buffer has no
duplicates). -/
theorem claim_C3_amended (T : List key_cancellation_t) (buf : List Nat)
    (hnd : buf.Nodup) (h0 : 0 ∉ buf) :
    reconScan T buf = reconScanStrict T buf :=
  raux_eq_strict T buf hnd h0 buf.length buf (desc_refl buf)

theorem claim_C3_witness :
    reconScan [⟨4, 5⟩, ⟨6, 5⟩] [5, 6] = reconScanStrict [⟨4, 5⟩, ⟨6, 5⟩] [5, 6] :=
  claim_C3_amended [⟨4, 5⟩, ⟨6, 5⟩] [5, 6] (by decide) (by decide)

/-- Claim C4, as stated, is false: with the one-directional table `[(4,5)]`
(a cancellation pair making 4 cancel 5) and cancellation enabled, after
press(4) followed by press(5) — 4 still physically held, not yet released —
the host report contains both 4 and 5: the press path only emits corrective
releases for pairs triggered by the *incoming* key, so pressing the
`unpress` key after its canceller re-registers it with the canceller still
reported held. -/
theorem claim_C4_counterexample :
    (⟨4, 5⟩ : key_cancellation_t) ∈ ([⟨4, 5⟩] : List key_cancellation_t) ∧
    4 ∈ (runSys [⟨4, 5⟩] (initSys true true) [(4, true), (5, true)]).host ∧
    5 ∈ (runSys [⟨4, 5⟩] (initSys true true) [(4, true), (5, true)]).host ∧
    4 ∈ (runSys [⟨4, 5⟩] (initSys true true) [(4, true), (5, true)]).phys := by
  decide

/-- Claim C4 (amended): for a cancellation pair `(A, B)` whose reverse pair
`(B, A)` is also in the table, with `A ≠ B`, with at most capacity-many (10)
distinct `press` keycodes in the table (so the hold buffer never saturates),
and with cancellation enabled throughout — every event being a press or
release of a basic (non-control) keycode, recovery either on or off — the
host report never contains both A and B simultaneously at any step of any
run from the pristine state (in particular not between A's press and its
release-reconciliation). -/
theorem claim_C4_amended (table : List key_cancellation_t) (A B : Nat) (r : Bool)
    (hAB : (⟨A, B⟩ : key_cancellation_t) ∈ table)
    (hBA : (⟨B, A⟩ : key_cancellation_t) ∈ table)
    (hne : A ≠ B)
    (hcap : (table.map key_cancellation_t.press).toFinset.card ≤ KEYREPORT_BUFFER_SIZE)
    (evs : List (Nat × Bool))
    (hbasic : ∀ e ∈ evs, IS_BASIC_KEYCODE e.1 = true) :
    ¬(A ∈ (runSys table (initSys true r) evs).host ∧
      B ∈ (runSys table (initSys true r) evs).host) :=
  (sysInv_run table A B r hAB hBA hne hcap evs (initSys true r)
    (sysInv_init table A B r) hbasic).2.2.1

theorem claim_C4_witness :
    ¬(4 ∈ (runSys [⟨4, 5⟩, ⟨5, 4⟩] (initSys true true)
        [(4, true), (5, true), (4, false), (6, true)]).host ∧
      5 ∈ (runSys [⟨4, 5⟩, ⟨5, 4⟩] (initSys true true)
        [(4, true), (5, true), (4, false), (6, true)]).host) :=
  claim_C4_amended [⟨4, 5⟩, ⟨5, 4⟩] 4 5 true (by decide) (by decide) (by decide)
    (by decide) [(4, true), (5, true), (4, false), (6, true)] (by decide)

theorem claim_C1_witness :
    HostAction.add_key 5 ∉
      (process_key_cancellation [⟨4, 5⟩, ⟨6, 5⟩, ⟨5, 4⟩]
        (process_key_cancellation [⟨4, 5⟩, ⟨6, 5⟩, ⟨5, 4⟩]
          (process_key_cancellation [⟨4, 5⟩, ⟨6, 5⟩, ⟨5, 4⟩]
            (process_key_cancellation [⟨4, 5⟩, ⟨6, 5⟩, ⟨5, 4⟩] ⟨⟨true, true⟩, []⟩ 5 true).state
            4 true).state
          6 true).state
        4 false).actions ∧
    (process_key_cancellation [⟨4, 5⟩, ⟨6, 5⟩, ⟨5, 4⟩]
      (process_key_cancellation [⟨4, 5⟩, ⟨6, 5⟩, ⟨5, 4⟩]
        (process_key_cancellation [⟨4, 5⟩, ⟨6, 5⟩, ⟨5, 4⟩]
          (process_key_cancellation [⟨4, 5⟩, ⟨6, 5⟩, ⟨5, 4⟩]
            (process_key_cancellation [⟨4, 5⟩, ⟨6, 5⟩, ⟨5, 4⟩] ⟨⟨true, true⟩, []⟩ 5 true).state
            4 true).state
          6 true).state
        4 false).state
      6 false).actions = [HostAction.add_key 5] :=
  claim_C1_amended [⟨4, 5⟩, ⟨6, 5⟩, ⟨5, 4⟩] 4 5 6 (by decide) (by decide) (by decide)
    (by decide) (by decide) (by decide) (by decide) (by decide) (by decide)

end KeyCancellation

namespace TurboClick

/-- Claim C10: `process_mouse_turbo_click` returns false exactly when the
keycode matches `turbo_click_keycode`; for the matching keycode only a press
toggles `turbo_enabled` — validating the deferred token when toggled on and
invalidating it when toggled off — while a release leaves `turbo_enabled`,
`click_token` and `click_registered` all unchanged. -/
theorem claim_C10_turbo_click (st : TCState) (k tck : Nat) (pressed : Bool) :
    ((process_mouse_turbo_click st k pressed tck).pass = false ↔ k = tck) ∧
    (k = tck → process_mouse_turbo_click st k false tck = ⟨false, st, []⟩) ∧
    (k = tck →
      (process_mouse_turbo_click st k true tck).state.turbo_enabled = !st.turbo_enabled ∧
      (process_mouse_turbo_click st k true tck).state.click_token_valid = !st.turbo_enabled) := by
  by_cases hk : k = tck
  · subst hk
    rcases st with ⟨e, v, r⟩
    cases pressed <;> cases e <;> cases v <;> cases r <;>
      simp [process_mouse_turbo_click, turbo_click_start, turbo_click_stop,
        turbo_click_callback]
  · simp [process_mouse_turbo_click, hk]

theorem claim_C10_witness :
    ((process_mouse_turbo_click ⟨false, false, false⟩ 7 true 7).pass = false ↔ (7 : Nat) = 7) ∧
    process_mouse_turbo_click ⟨false, false, false⟩ 7 false 7 = ⟨false, ⟨false, false, false⟩, []⟩ ∧
    ((process_mouse_turbo_click ⟨false, false, false⟩ 7 true 7).state.turbo_enabled = !false ∧
     (process_mouse_turbo_click ⟨false, false, false⟩ 7 true 7).state.click_token_valid = !false) :=
  ⟨(claim_C10_turbo_click ⟨false, false, false⟩ 7 7 true).1,
   (claim_C10_turbo_click ⟨false, false, false⟩ 7 7 true).2.1 rfl,
   (claim_C10_turbo_click ⟨false, false, false⟩ 7 7 true).2.2 rfl⟩

end TurboClick
